import Mathlib

/-!
Verification of the buildkit solver core (`solver/jobs.go`) of this
repository: a shallow embedding of the active-graph registry
(`Solver.loadUnlocked`, `Solver.deleteIfUnreferenced`, `Job.Discard`),
the edge-merge protocol (`Solver.setEdge`, `state.setEdge`,
`state.addJobs`), the single-flight shared operation (`sharedOp.Exec`,
`sharedOp.CacheMap`), `Solver.Get`, `Job.EachValue` and the provenance
walk, together with theorems settling the specification claims.

Modelling conventions:
* Go maps keyed by digests / job ids become association lists keyed by
  `String`; Go `map[X]struct{}` sets become `List` with
  insert-if-absent discipline.
* `sync`/`flightcontrol` machinery is sequentialised: a single-flight
  `Do` runs its callback directly, which matches the observable memo
  behaviour the claims talk about for the winning caller.
* Recursions that Go performs over the mutable heap (childVtx
  teardown, addJobs, CacheMap's self-call, load) take an explicit fuel
  argument; fuel exhaustion models non-termination and each theorem
  either supplies adequate fuel through its hypotheses or conditions on
  a successfully completed (`Except.ok` / `Option.some`) run.
* Errors are a small inductive type whose constructors mirror the
  wrappers applied in the source (`errors.Wrap(err, "acquire op
  resources")`, the cancellation rewrap `errors.Wrap(context.Cause(ctx),
  err.Error())`, `errdefs.WithOp`, `errdefs.WrapVertex`).
-/

/-- Errors, with constructors for each wrapping applied in jobs.go.
`code n` is an arbitrary underlying error. -/
inductive SErr where
  | code (n : Nat)
  | acquireWrap (e : SErr)
  | cancelWrap (e : SErr)
  | opWrap (e : SErr)
  | vtxWrap (e : SErr)
deriving DecidableEq, Repr

/-- The deferred decoration in `sharedOp.CacheMap`/`Exec`/`CalcSlowCache`:
`err = errdefs.WithOp(err, ...); err = errdefs.WrapVertex(err, ...)`,
which leaves a nil error nil. -/
def wrapOV : Option SErr → Option SErr
  | none => none
  | some e => some (.vtxWrap (.opWrap e))

/-- A vertex as the loader sees it: its digest, its
`Options().IgnoreCache` flag and its ordered input edges
`(index, vertex)`.  Both client-submitted vertices and the
`vertexWithCacheOptions` wrappers made by `loadUnlocked` are values of
this type (the wrapper overrides digest and inputs and keeps the
options). -/
inductive Vtx where
  | mk (dgst : String) (ignoreCache : Bool) (inputs : List (Nat × Vtx))

/-- `Vertex.Digest()`. -/
def Vtx.dgst : Vtx → String
  | .mk d _ _ => d

/-- `Vertex.Options().IgnoreCache`. -/
def Vtx.ignoreCache : Vtx → Bool
  | .mk _ b _ => b

/-- `Vertex.Inputs()`. -/
def Vtx.inputs : Vtx → List (Nat × Vtx)
  | .mk _ _ l => l

/-- Progress-writer identities: a job's writer `j.pw`, or the
multi-writer `st.mpw` owned by the state keyed at a digest. -/
inductive WId where
  | jobPw (jobId : String)
  | stMpw (dgst : String)
deriving DecidableEq, Repr

/-- Insert into a Go set-map (`m[x] = struct{}{}` after an absence
check): no duplicate is created. -/
def pushNew {α : Type} [DecidableEq α] (x : α) (l : List α) : List α :=
  if x ∈ l then l else x :: l

/-- The `state` struct of jobs.go restricted to the fields the claims
are about: `jobs`, `parents`, `childVtx`, the effective vertex `vtx`,
`origDigest`, the per-index `edges` (edge-arena ids, see `Arena`), and
the progress bookkeeping `allPw` / `mpw`.  The fields `cache`,
`mainCache`, `mspan`, `execSpan`, `clientVertex` and the lazily created
`op` play no part in any claim and are omitted. -/
structure St where
  jobs : List String
  parents : List String
  childVtx : List String
  vtx : Vtx
  origDigest : String
  edges : List (Nat × Nat)
  allPw : List WId
  mpw : List WId

/-- The `Solver.actives` map: digest-keyed association list. -/
abbrev Reg := List (String × St)

/-- Map lookup. -/
def lookupReg : Reg → String → Option St
  | [], _ => none
  | (k, st) :: t, d => if k = d then some st else lookupReg t d

/-- In-place mutation of the state stored under `d` (a no-op when `d`
is absent, like updating through a pointer that was never handed out). -/
def updateReg : Reg → String → (St → St) → Reg
  | [], _, _ => []
  | (k, st) :: t, d, f =>
    if k = d then (k, f st) :: updateReg t d f else (k, st) :: updateReg t d f

/-- `delete(jl.actives, k)`. -/
def eraseReg : Reg → String → Reg
  | [], _ => []
  | (k, st) :: t, d => if k = d then eraseReg t d else (k, st) :: eraseReg t d

/-- `jl.actives[dgst] = st` for a digest known to be absent. -/
def insertReg (a : Reg) (d : String) (st : St) : Reg :=
  (d, st) :: a

/-- Lookup in a `Nat`-keyed association list (`state.edges`). -/
def lookupNat {β : Type} : List (Nat × β) → Nat → Option β
  | [], _ => none
  | (k, x) :: t, i => if k = i then some x else lookupNat t i

/-- Update in a `Nat`-keyed association list. -/
def updateNat {β : Type} : List (Nat × β) → Nat → (β → β) → List (Nat × β)
  | [], _, _ => []
  | (k, x) :: t, i, f =>
    if k = i then (k, f x) :: updateNat t i f else (k, x) :: updateNat t i f

/-- `digest.FromBytes(fmt.Appendf(nil, "%s-ignorecache", dgst))`:
the ignore-cache rewrite of a digest.  The collision-free hash is
modelled by injective tagging. -/
def dgstWithoutCache (d : String) : String :=
  d ++ "-ignorecache"

mutual

/-- Structural equality on vertices (the load memo `cache map[Vertex]Vertex`
is keyed by vertex identity; structurally equal vertices load to the
same result, so structural keying is faithful). -/
def Vtx.beq : Vtx → Vtx → Bool
  | .mk d₁ i₁ l₁, .mk d₂ i₂ l₂ =>
    d₁ == d₂ && i₁ == i₂ && Vtx.beqList l₁ l₂

/-- Structural equality on input lists. -/
def Vtx.beqList : List (Nat × Vtx) → List (Nat × Vtx) → Bool
  | [], [] => true
  | (n₁, v₁) :: t₁, (n₂, v₂) :: t₂ => n₁ == n₂ && Vtx.beq v₁ v₂ && Vtx.beqList t₁ t₂
  | _, _ => false

end

instance : BEq Vtx := ⟨Vtx.beq⟩

/-- The loader's per-call memo `cache map[Vertex]Vertex`. -/
abbrev LoadMemo := List (Vtx × Vtx)

/-- Memo lookup. -/
def lookupMemo : LoadMemo → Vtx → Option Vtx
  | [], _ => none
  | (k, v') :: t, v => if k == v then some v' else lookupMemo t v

/-- The dedup portion of `Solver.loadUnlocked` (jobs.go lines 472-501),
run after the inputs have been loaded.  Returns
`(entryKey, dgstVar, v', existing)` where
* `entryKey` is the key under which the chosen state lives (or is about
  to be created),
* `dgstVar` is the value of Go's `dgst` variable after this block (used
  later for the parent's `childVtx` entry; in the branch that finds
  `actives[dgstWithoutCache]` Go leaves `dgst` at the original digest),
* `v'` is the effective vertex (`st.vtx` when adopting, else the
  `vertexWithCacheOptions` wrapper), and
* `existing` is the state found, if any. -/
def loadDedup (a : Reg) (v : Vtx) (inputs : List (Nat × Vtx)) :
    String × String × Vtx × Option St :=
  let dgst := v.dgst
  let dnc := dgstWithoutCache dgst
  match lookupReg a dnc with
  | some st => (dnc, dgst, st.vtx, some st)
  | none =>
    let key :=
      match lookupReg a dgst with
      | some st =>
        -- "!ignorecache merges with ignorecache but ignorecache doesn't
        -- merge with !ignorecache"
        if !st.vtx.ignoreCache && v.ignoreCache then dnc else dgst
      | none => dgst
    let v' := Vtx.mk key v.ignoreCache inputs
    (key, key, v', lookupReg a key)

/-- The fresh `state` literal of jobs.go lines 504-520 (omitted fields
as in `St`; `mpw`/`allPw` start empty). -/
def freshSt (v' : Vtx) (origDgst : String) : St :=
  { jobs := [], parents := [], childVtx := [], vtx := v'
    origDigest := origDgst, edges := [], allPw := [], mpw := [] }

/-- The `if parent != nil` block of `Solver.loadUnlocked` (jobs.go
lines 567-578): record the parent edge, back-reference into the
parent's `childVtx` (under the `dgst` variable `dgstVar`), or fail with
`inactive parent`. -/
def loadLinkParent (a₂ : Reg) (entryKey dgstVar : String) (p : Vtx) (v' : Vtx) :
    Except String (Vtx × Reg) :=
  match lookupReg a₂ entryKey with
  | none => .error "unreachable: state was just ensured"
  | some st =>
    if p.dgst ∈ st.parents then .ok (v', a₂)
    else
      let a₃ := updateReg a₂ entryKey
        (fun st => { st with parents := pushNew p.dgst st.parents })
      match lookupReg a₃ p.dgst with
      | none => .error ("inactive parent " ++ p.dgst)
      | some _ =>
        let a₄ := updateReg a₃ p.dgst
          (fun ps => { ps with childVtx := pushNew dgstVar ps.childVtx })
        .ok (v', a₄)

/-- The registration tail of `Solver.loadUnlocked` (jobs.go lines
551-583) on the ensured registry `a₁`: job membership, parent /
childVtx linking.  The `CacheSources` union and
`connectProgressFromState` calls only touch the omitted
`cache`/`allPw`/`mspan` bookkeeping and are not modelled.  On the
`inactive parent` error Go returns with the mutations already applied;
the model discards the partial registry, which is indistinguishable for
completed (`.ok`) loads. -/
def loadRegister (a₁ : Reg) (entryKey dgstVar : String)
    (parent : Option Vtx) (jid : Option String) (v' : Vtx) :
    Except String (Vtx × Reg) :=
  let a₂ :=
    match jid with
    | some j => updateReg a₁ entryKey (fun st => { st with jobs := pushNew j st.jobs })
    | none => a₁
  match parent with
  | none => .ok (v', a₂)
  | some p => loadLinkParent a₂ entryKey dgstVar p v'

/-- `loadFinish` assembled: dedup, creation, then registration. -/
def loadFinish (a : Reg) (v : Vtx) (inputs : List (Nat × Vtx))
    (parent : Option Vtx) (jid : Option String) :
    Except String (Vtx × Reg) :=
  let (entryKey, dgstVar, v', stOpt) := loadDedup a v inputs
  let a₁ :=
    match stOpt with
    | none => insertReg a entryKey (freshSt v' v.dgst)
    | some _ => a
  loadRegister a₁ entryKey dgstVar parent jid v'

mutual

/-- `Solver.loadUnlocked` (jobs.go lines 457-583): memo check, recursive
load of the inputs, then the per-vertex tail `loadFinish`.  All
recursive calls receive the same `parent` and `jid` as the root call,
as in the source.  `fuel` bounds the input-DAG depth. -/
def loadU (fuel : Nat) (a : Reg) (memo : LoadMemo)
    (parent : Option Vtx) (jid : Option String) (v : Vtx) :
    Except String (Vtx × Reg × LoadMemo) :=
  match fuel with
  | 0 => .error "recursion limit"
  | fuel + 1 =>
    match lookupMemo memo v with
    | some v' => .ok (v', a, memo)
    | none =>
      match loadUInputs fuel a memo parent jid v.inputs with
      | .error e => .error e
      | .ok (inputs', a₁, memo₁) =>
        match loadFinish a₁ v inputs' parent jid with
        | .error e => .error e
        | .ok (v', a₂) => .ok (v', a₂, (v, v') :: memo₁)
termination_by (fuel, 0)

/-- The input-rewrite loop of `Solver.loadUnlocked` (jobs.go lines
463-470). -/
def loadUInputs (fuel : Nat) (a : Reg) (memo : LoadMemo)
    (parent : Option Vtx) (jid : Option String) (l : List (Nat × Vtx)) :
    Except String (List (Nat × Vtx) × Reg × LoadMemo) :=
  match l with
  | [] => .ok ([], a, memo)
  | (idx, iv) :: rest =>
    match loadU fuel a memo parent jid iv with
    | .error e => .error e
    | .ok (iv', a₁, memo₁) =>
      match loadUInputs fuel a₁ memo₁ parent jid rest with
      | .error e => .error e
      | .ok (rest', a₂, memo₂) => .ok ((idx, iv') :: rest', a₂, memo₂)
termination_by (fuel, l.length + 1)

end

/-- `Solver.load` (jobs.go lines 447-454): fresh memo. -/
def loadTop (fuel : Nat) (a : Reg) (parent : Option Vtx)
    (jid : Option String) (v : Vtx) : Except String (Vtx × Reg) :=
  (loadU fuel a [] parent jid v).map (fun r => (r.1, r.2.1))

mutual

/-- `Solver.deleteIfUnreferenced` (jobs.go lines 666-702): if the state
at `k` has no jobs and no parents, unlink `k` from each child's
`parents`, recurse into the children, release (resource effects only,
no registry change) and remove `k`.  `fuel` bounds the childVtx
recursion depth; Go diverges (or nil-panics on a dangling childVtx
entry) where the fuel runs out / the child lookup fails, so the model
leaves the registry unchanged there and the theorems only speak about
runs those paths cannot reach. -/
def deleteIfUnreferenced (fuel : Nat) (k : String) (a : Reg) : Reg :=
  match fuel with
  | 0 => a
  | fuel + 1 =>
    match lookupReg a k with
    | none => a
    | some st =>
      if st.jobs.isEmpty && st.parents.isEmpty then
        eraseReg (delChildren fuel k st.childVtx a) k
      else a

/-- The `for chKey := range st.childVtx` loop of
`Solver.deleteIfUnreferenced`: `delete(chState.parents, k)` then
recurse. -/
def delChildren (fuel : Nat) (k : String) (children : List String) (a : Reg) : Reg :=
  match children with
  | [] => a
  | ch :: rest =>
    match lookupReg a ch with
    | none => delChildren fuel k rest a
    | some _ =>
      let a₁ := updateReg a ch (fun st => { st with parents := st.parents.erase k })
      delChildren fuel k rest (deleteIfUnreferenced fuel ch a₁)

end

/-- The unconditional `delete(st.allPw, j.pw)` of `Job.Discard`
(jobs.go line 792), applied through the possibly already removed state
pointer: a no-op when `k` has been deleted from the registry. -/
def removePw (a : Reg) (k : String) (j : String) : Reg :=
  updateReg a k (fun st => { st with allPw := st.allPw.erase (WId.jobPw j) })

/-- The `for k, st := range j.list.actives` loop of `Job.Discard`
(jobs.go lines 778-794), iterating over the key list captured at entry
and skipping keys the recursive teardown has already removed (Go's map
iteration does not produce entries deleted during the iteration). -/
def discardGo (fuel : Nat) (j : String) (ks : List String) (a : Reg) : Reg :=
  match ks with
  | [] => a
  | k :: rest =>
    match lookupReg a k with
    | none => discardGo fuel j rest a
    | some st =>
      if j ∈ st.jobs then
        let a₁ := updateReg a k (fun st => { st with jobs := st.jobs.erase j })
        let a₂ := deleteIfUnreferenced fuel k a₁
        discardGo fuel j rest (removePw a₂ k j)
      else discardGo fuel j rest (removePw a k j)

/-- `Job.Discard` (jobs.go lines 772-804) restricted to its effect on
the actives registry (the progress-pipe close and the delayed removal
from the jobs map do not touch `actives`). -/
def discardJob (fuel : Nat) (j : String) (a : Reg) : Reg :=
  discardGo fuel j (a.map Prod.fst) a

/-- A state is live: it still has a job or a parent holding it. -/
def LiveSt (st : St) : Prop :=
  st.jobs ≠ [] ∨ st.parents ≠ []

/-- The registry membership invariant of the spec: every state present
in `actives` is live. -/
def InvReg (a : Reg) : Prop :=
  ∀ d st, lookupReg a d = some st → LiveSt st

/-- A rank function witnessing that the childVtx graph restricted to
the registry is acyclic (children have strictly smaller rank), which is
what makes Go's teardown recursion terminate. -/
def RankOK (a : Reg) (rank : String → Nat) : Prop :=
  ∀ d st, lookupReg a d = some st → ∀ ch ∈ st.childVtx, rank ch < rank d

/-- `b`'s registry entries all come from `a` with `childVtx` intact:
the shape of change performed by the teardown helpers, under which a
rank function for `a` keeps working for `b`. -/
def SubCh (a b : Reg) : Prop :=
  ∀ d st, lookupReg b d = some st →
    ∃ st₀, lookupReg a d = some st₀ ∧ st.childVtx = st₀.childVtx

/-- One `edge` heap object as far as merging is concerned: the
`Edge{Index, Vertex}` it was created for and its `owner` pointer
(another edge object, set by `takeOwnership`). -/
structure EdgeRec where
  vtxDgst : String
  index : Nat
  owner : Option Nat
deriving DecidableEq, Repr

/-- The heap of edge objects, identified by allocation ids (the spec's
design notes prescribe exactly this arena-style modelling of the
`edge.owner` pointer graph). -/
structure Arena where
  edges : List (Nat × EdgeRec)
  next : Nat
deriving Repr

/-- Dereference an edge id. -/
def lookupArena (ar : Arena) (eid : Nat) : Option EdgeRec :=
  lookupNat ar.edges eid

/-- `e.owner` for an edge id (`none` also when the id dangles, which
the theorems' hypotheses rule out). -/
def ownerOf (ar : Arena) (eid : Nat) : Option Nat :=
  (lookupArena ar eid).bind (·.owner)

/-- The `for e.owner != nil { e = e.owner }` loop of `state.getEdge` /
`state.setEdge`, chasing the owner chain for at most `cf` steps. -/
def resolveOwner (ar : Arena) : Nat → Nat → Nat
  | 0, eid => eid
  | cf + 1, eid =>
    match ownerOf ar eid with
    | none => eid
    | some o => resolveOwner ar cf o

/-- `edge.edge.Vertex.Digest()` for an edge id (dangling ids give `""`;
ruled out by hypotheses). -/
def edgeDgst (ar : Arena) (eid : Nat) : String :=
  match lookupArena ar eid with
  | some r => r.vtxDgst
  | none => ""

/-- Modelled from the spec: `targetEdge.takeOwnership(e)` — the edge
merge primitive lives outside jobs.go; per the spec ("Mark
`B.takeOwnership(edgeOnA)`: subsequent lookups of edgeOnA follow the
owner chain to B") it points `e`'s owner at the representative. -/
def takeOwnership (ar : Arena) (targetEid : Nat) (eid : Nat) : Arena :=
  { ar with edges := updateNat ar.edges eid (fun r => { r with owner := some targetEid }) }

/-- `newEdge(Edge{Index: index, Vertex: s.vtx}, ...)`: allocate a fresh
ownerless edge object; returns the new arena and the new id. -/
def allocEdge (ar : Arena) (d : String) (idx : Nat) : Arena × Nat :=
  ({ edges := (ar.next, { vtxDgst := d, index := idx, owner := none }) :: ar.edges
     next := ar.next + 1 }, ar.next)

/-- `eid` reaches `t` by following zero or more `owner` pointers: the
sense in which an edge "is owned by" the representative after a merge. -/
inductive ChainReaches (ar : Arena) : Nat → Nat → Prop
  | here (e : Nat) : ChainReaches ar e e
  | step {e o t : Nat} : ownerOf ar e = some o → ChainReaches ar o t →
      ChainReaches ar e t

/-- The digest `inputState.getEdge(inputEdge.Index)` resolves to inside
`state.addJobs` (jobs.go lines 222-227).  When the index has no edge
yet, `getEdge` would create an ownerless edge for `inputState.vtx`
itself, so the resolved digest is `ist.vtx.dgst`; the allocation has no
other effect observable by `addJobs`, so the model reads instead of
mutating. -/
def resolveRepDgst (ar : Arena) (cf : Nat) (ist : St) (idx : Nat) : String :=
  match lookupNat ist.edges idx with
  | none => ist.vtx.dgst
  | some eid => edgeDgst ar (resolveOwner ar cf eid)

/-- The `for j := range srcState.jobs { s.jobs[j] = struct{}{} }` union
of `state.addJobs`. -/
def unionJobs : List String → List String → List String
  | dst, [] => dst
  | dst, j :: rest => unionJobs (if j ∈ dst then dst else dst ++ [j]) rest

mutual

/-- `state.addJobs` (jobs.go lines 197-236): memo check, union the
source jobs into this state, then recurse into every active input
state and, for inputs whose edge was already merged away, into the
state of the owning representative edge.  The receiver is identified by
its registry key `d`; `fuel` bounds the recursion (Go's own bound is
the memo), `cf` bounds owner-chain chasing. -/
def addJobs (fuel cf : Nat) (ar : Arena) (srcJobs : List String)
    (d : String) (a : Reg) (memo : List String) : Reg × List String :=
  match fuel with
  | 0 => (a, memo)
  | fuel + 1 =>
    if d ∈ memo then (a, memo)
    else
      match lookupReg a d with
      | none => (a, memo)
      | some s =>
        let memo₁ := d :: memo
        let a₁ := updateReg a d (fun st => { st with jobs := unionJobs st.jobs srcJobs })
        addJobsInputs fuel cf ar srcJobs s.vtx.inputs a₁ memo₁
termination_by (fuel, 0)

/-- The `for _, inputEdge := range s.vtx.Inputs()` loop of
`state.addJobs`. -/
def addJobsInputs (fuel cf : Nat) (ar : Arena) (srcJobs : List String)
    (l : List (Nat × Vtx)) (a : Reg) (memo : List String) : Reg × List String :=
  match l with
  | [] => (a, memo)
  | (idx, iv) :: rest =>
    match lookupReg a iv.dgst with
    | none => addJobsInputs fuel cf ar srcJobs rest a memo
    | some ist =>
      let (a₁, memo₁) := addJobs fuel cf ar srcJobs iv.dgst a memo
      let md := resolveRepDgst ar cf ist idx
      if md == iv.dgst then addJobsInputs fuel cf ar srcJobs rest a₁ memo₁
      else
        match lookupReg a₁ md with
        | none => addJobsInputs fuel cf ar srcJobs rest a₁ memo₁
        | some _ =>
          let (a₂, memo₂) := addJobs fuel cf ar srcJobs md a₁ memo₁
          addJobsInputs fuel cf ar srcJobs rest a₂ memo₂
termination_by (fuel, l.length + 1)

end

/-- `state.setEdge` (jobs.go lines 164-191) for the state keyed `sKey`:
resolve or create the edge at `index`, return unchanged if it already
resolves to the target, otherwise hand it to the target via
`takeOwnership` and, when the target's state is present (`targetKey`),
union jobs into the target's transitive closure and attach this state's
multi-writer to the target (deduplicated through `allPw`). -/
def stateSetEdge (fuel cf : Nat) (a : Reg) (ar : Arena) (sKey : String)
    (index : Nat) (targetEid : Nat) (targetKey : Option String) : Reg × Arena :=
  match lookupReg a sKey with
  | none => (a, ar)
  | some s =>
    let afterOwn : Reg → Arena → Reg × Arena := fun a ar =>
      match targetKey with
      | none => (a, ar)
      | some tk =>
        let (a₁, _) := addJobs fuel cf ar s.jobs tk a []
        let a₂ := updateReg a₁ tk (fun tst =>
          if WId.stMpw sKey ∈ tst.allPw then tst
          else { tst with mpw := tst.mpw ++ [WId.stMpw sKey]
                          allPw := WId.stMpw sKey :: tst.allPw })
        (a₂, ar)
    match lookupNat s.edges index with
    | some eid =>
      let e := resolveOwner ar cf eid
      if e == targetEid then (a, ar)
      else afterOwn a (takeOwnership ar targetEid e)
    | none =>
      let (ar₁, newId) := allocEdge ar s.vtx.dgst index
      let a₁ := updateReg a sKey (fun st => { st with edges := (index, newId) :: st.edges })
      afterOwn a₁ (takeOwnership ar₁ targetEid newId)

/-- `Solver.setEdge` (jobs.go lines 381-394): look up the state of the
submitted edge's vertex, look up the representative edge's state
(potentially nil — intentional), delegate to `state.setEdge`. -/
def solverSetEdge (fuel cf : Nat) (a : Reg) (ar : Arena) (eDgst : String)
    (eIdx : Nat) (targetEid : Nat) : Reg × Arena :=
  match lookupReg a eDgst with
  | none => (a, ar)
  | some _ =>
    let tk := edgeDgst ar targetEid
    let targetKey := if (lookupReg a tk).isSome then some tk else none
    stateSetEdge fuel cf a ar eDgst eIdx targetEid targetKey

/-- The registry and arena `state.setEdge` has produced right before it
calls `targetState.addJobs` (jobs.go lines 168-182), on either
merge-performing path: with an edge already at `index` it is handed to
the target via `takeOwnership`; with none, a fresh edge is created,
recorded in the state's edge table and then handed over.  Reachability
in the C5 theorem is phrased over this pair, since it is what `addJobs`
traverses. -/
def setEdgePre (cf : Nat) (a : Reg) (ar : Arena) (sKey : String)
    (index targetEid : Nat) (s : St) : Reg × Arena :=
  match lookupNat s.edges index with
  | some eid => (a, takeOwnership ar targetEid (resolveOwner ar cf eid))
  | none =>
    let (ar₁, newId) := allocEdge ar s.vtx.dgst index
    (updateReg a sKey (fun st => { st with edges := (index, newId) :: st.edges }),
     takeOwnership ar₁ targetEid newId)

/-- Two registries with the same domain where every entry keeps its
vertex and edge table and can only gain jobs: the shape of change
performed by `addJobs`. -/
def SameSkel (a b : Reg) : Prop :=
  ∀ d, (lookupReg a d = none ∧ lookupReg b d = none) ∨
    ∃ st st', lookupReg a d = some st ∧ lookupReg b d = some st' ∧
      st'.vtx = st.vtx ∧ st'.edges = st.edges ∧ ∀ j ∈ st.jobs, j ∈ st'.jobs

/-- The successors `state.addJobs` visits for one input edge
`(idx, iv)` of a vertex: the input state itself, and — when the input's
edge at `idx` already resolves to another vertex — the active state of
that owning representative edge. -/
def StepInput (a : Reg) (ar : Arena) (cf : Nat) (idx : Nat) (iv : Vtx)
    (y : String) : Prop :=
  ∃ ist, lookupReg a iv.dgst = some ist ∧
    (y = iv.dgst ∨
      (y = resolveRepDgst ar cf ist idx ∧ y ≠ iv.dgst ∧ (lookupReg a y).isSome))

/-- One traversal step of `state.addJobs`: from an active state to one
of its inputs' successors. -/
def StepReach (a : Reg) (ar : Arena) (cf : Nat) (x y : String) : Prop :=
  ∃ st, lookupReg a x = some st ∧
    ∃ p ∈ st.vtx.inputs, StepInput a ar cf p.1 p.2 y

/-- Number of registry keys not yet in the `addJobs` memo: the measure
that bounds the recursion. -/
def unvisitedCnt (a : Reg) (memo : List String) : Nat :=
  ((a.map Prod.fst).filter (fun k => decide (k ∉ memo))).length

/-- Concrete source state for exercising `state.setEdge`: it holds job
"j" and has an edge object (arena id 0) at index 0. -/
def c5SrcSt : St :=
  { jobs := ["j"], parents := [], childVtx := [], vtx := .mk "s" false []
    origDigest := "s", edges := [(0, 0)], allPw := [], mpw := [] }

/-- Concrete target state for exercising `state.setEdge`: no jobs yet. -/
def c5TgtSt : St :=
  { jobs := [], parents := [], childVtx := [], vtx := .mk "t" false []
    origDigest := "t", edges := [], allPw := [], mpw := [] }

/-- Two-state registry: the source keyed "s", the target keyed "t". -/
def c5Reg : Reg := [("s", c5SrcSt), ("t", c5TgtSt)]

/-- Arena for a fresh merge: edge 0 belongs to the source vertex, edge 1
(the target edge) to the target vertex; no owner pointers yet. -/
def c5MergeArena : Arena :=
  { edges := [(0, { vtxDgst := "s", index := 0, owner := none }),
              (1, { vtxDgst := "t", index := 0, owner := none })]
    next := 2 }

/-- Arena after a previous merge of the same edge: edge 0 is already
owned by the target edge 1, so `setEdge` resolves it to the target and
returns early. -/
def c5EarlyArena : Arena :=
  { edges := [(0, { vtxDgst := "s", index := 0, owner := some 1 }),
              (1, { vtxDgst := "t", index := 0, owner := none })]
    next := 2 }

/-- The target state after the fresh merge: job "j" unioned in and the
source state's multi-writer attached. -/
def c5TgtAfter : St :=
  { jobs := ["j"], parents := [], childVtx := [], vtx := .mk "t" false []
    origDigest := "t", edges := [], allPw := [WId.stMpw "s"]
    mpw := [WId.stMpw "s"] }

/-- The memoised `execRes` of a `sharedOp` (jobs.go lines 863-866):
shared results and the exporters collected from sub-builds.  Results
and exporters are opaque ids; `wrapShared`/`unwrapShared` clone result
handles without changing the underlying values, so they are modelled as
the identity. -/
structure ExecMemo where
  outputs : List Nat
  exporters : List Nat
deriving DecidableEq, Repr

/-- The memoisation fields of `sharedOp` (jobs.go lines 868-891).
`opErr` is the sticky `opOnce` resolver outcome of `getOp`; the
`slowCacheRes`/`slowCacheErr` maps belong to `CalcSlowCache`, which no
claim touches, and are omitted. -/
structure SharedOpSt where
  opErr : Option SErr
  execRes : Option ExecMemo
  execDone : Bool
  execErr : Option SErr
  cacheRes : List Nat
  cacheDone : Bool
  cacheErr : Option SErr
  subExporters : List Nat
deriving DecidableEq, Repr

/-- What the collaborators do when the winning caller runs the exec
callback once: the outcome of `op.Acquire(ctx)`, of
`op.Exec(ctx, s.st, inputs)`, whether `ctx.Done()` fires by the time
the error is inspected, and whether `errdefs.IsCanceled(ctx, err)`
holds for it. -/
structure ExecBehavior where
  acquireErr : Option SErr
  opRes : Option (List Nat)
  opErr : Option SErr
  ctxDone : Bool
  canceled : Bool

/-- Result of one `sharedOp.Exec` call: outputs/exporters or error, the
post state, and how often `op.Acquire` / `op.Exec` ran during it. -/
structure ExecOut where
  outputs : Option (List Nat × List Nat)
  err : Option SErr
  st : SharedOpSt
  acquires : Nat
  execs : Nat
deriving DecidableEq, Repr

/-- `sharedOp.Exec` (jobs.go lines 1082-1156).  The single-flight
`gExecRes.Do` is sequentialised: the winning caller's callback runs
directly.  The deferred `release()` of `op.Acquire` and the
`releaseError` walk on cancellation act only on external resources and
are not modelled. -/
def sharedOpExec (s : SharedOpSt) (b : ExecBehavior) : ExecOut :=
  match s.opErr with
  | some e => { outputs := none, err := wrapOV (some e), st := s, acquires := 0, execs := 0 }
  | none =>
    if s.execDone then
      match s.execErr with
      | some e => { outputs := none, err := wrapOV (some e), st := s, acquires := 0, execs := 0 }
      | none =>
        match s.execRes with
        | some m =>
          { outputs := some (m.outputs, m.exporters), err := none, st := s
            acquires := 0, execs := 0 }
        | none => { outputs := none, err := none, st := s, acquires := 0, execs := 0 }
    else
      match b.acquireErr with
      | some e =>
        { outputs := none, err := wrapOV (some (.acquireWrap e)), st := s
          acquires := 1, execs := 0 }
      | none =>
        let isCancel := b.opErr.isSome && b.ctxDone && b.canceled
        let err₁ := if isCancel then b.opErr.map .cancelWrap else b.opErr
        let s' :=
          if isCancel then s
          else
            { s with execDone := true
                     execRes :=
                       match b.opRes with
                       | some outs => some { outputs := outs, exporters := s.subExporters }
                       | none => s.execRes
                     execErr := b.opErr }
        if s'.execRes.isNone || err₁.isSome then
          { outputs := none, err := wrapOV err₁, st := s', acquires := 1, execs := 1 }
        else
          match s'.execRes with
          | some m =>
            { outputs := some (m.outputs, m.exporters), err := none, st := s'
              acquires := 1, execs := 1 }
          | none => { outputs := none, err := none, st := s', acquires := 1, execs := 1 }

/-- A whole lifetime of `Exec` calls on one state: fold the calls,
collecting each call's outputs and the total collaborator invocation
counts. -/
def execFold (s : SharedOpSt) :
    List ExecBehavior → SharedOpSt × Nat × Nat × List (Option (List Nat × List Nat))
  | [] => (s, 0, 0, [])
  | b :: rest =>
    let o := sharedOpExec s b
    let (s', aq, ex, outs) := execFold o.st rest
    (s', o.acquires + aq, o.execs + ex, o.outputs :: outs)

/-- One `op.CacheMap(ctx, s.st, len(s.cacheRes))` outcome: the cache
map produced, the `done` flag, the error, and the cancellation
environment, indexed by the op-side invocation index. -/
structure CMBehavior where
  res : Nat
  done : Bool
  err : Option SErr
  ctxDone : Bool
  canceled : Bool

/-- The single-flight callback of `sharedOp.CacheMap` (jobs.go lines
1019-1070): returns the (possibly extended) memo array, the error, the
post state and the list of op invocation indices performed. -/
def cacheMapInner (s : SharedOpSt) (beh : Nat → CMBehavior) :
    Nat → List Nat × Option SErr × SharedOpSt × List Nat := fun index =>
  if (!s.cacheRes.isEmpty && s.cacheDone) || index < s.cacheRes.length then
    (s.cacheRes, none, s, [])
  else
    match s.cacheErr with
    | some e => ([], some e, s, [])
    | none =>
      let i := s.cacheRes.length
      let b := beh i
      let isCancel := b.err.isSome && b.ctxDone && b.canceled
      let err₁ := if isCancel then b.err.map .cancelWrap else b.err
      let s' :=
        if isCancel then s
        else
          match b.err with
          | none => { s with cacheRes := s.cacheRes ++ [b.res], cacheDone := b.done
                             cacheErr := none }
          | some e => { s with cacheErr := some e }
      (s'.cacheRes, err₁, s', [i])

/-- Result of one completed `sharedOp.CacheMap` call. -/
structure CMOut where
  resp : Option (Nat × Bool)
  err : Option SErr
  st : SharedOpSt
  invoked : List Nat
deriving Repr

/-- `sharedOp.CacheMap` (jobs.go lines 1009-1080): `getOp`, the
single-flight callback, then — when the memo array is still too short —
the self-call `return s.CacheMap(ctx, index)`.  `none` models the run
that never completes (the self-call loop). -/
def sharedOpCacheMap : Nat → SharedOpSt → (Nat → CMBehavior) → Nat → Option CMOut
  | 0, _, _, _ => none
  | fuel + 1, s, beh, index =>
    match s.opErr with
    | some e => some { resp := none, err := wrapOV (some e), st := s, invoked := [] }
    | none =>
      let (res, err, s', inv) := cacheMapInner s beh index
      match err with
      | some e => some { resp := none, err := wrapOV (some e), st := s', invoked := inv }
      | none =>
        if res.length ≤ index then
          match sharedOpCacheMap fuel s' beh index with
          | none => none
          | some o => some { o with invoked := inv ++ o.invoked }
        else
          some { resp := some (res.getD index 0, s'.cacheDone), err := none, st := s'
                 invoked := inv }

/-- `Solver.Get`'s timeout constant (jobs.go line 638:
`context.WithTimeoutCause(ctx, 6*time.Second, ...)`), in seconds. -/
def getTimeoutSeconds : Nat := 6

/-- Outcome of `Solver.Get`. -/
inductive GetResult where
  | job (id : String)
  | unknownJob (id : String)
deriving DecidableEq, Repr

/-- The condition-variable wait loop of `Solver.Get` (jobs.go lines
650-662), abstracted over time: `obs` is the sequence of
`jl.jobs[id]` lookups the loop observes at wake-ups strictly before the
6-second context expires (the timeout goroutine guarantees a final
wake-up with the context done, after which the loop returns the typed
`errdefs.NewUnknownJobError(id)`; the loop checks `ctx.Done()` before
the lookup). -/
def solverGet (id : String) : List (Option String) → GetResult
  | [] => .unknownJob id
  | none :: rest => solverGet id rest
  | some j :: _ => .job j

/-- `Job.SetValue` (jobs.go lines 827-829): `sync.Map.Store`
overwrites. -/
def jobSetValue (values : List (String × Nat)) (k : String) (v : Nat) :
    List (String × Nat) :=
  (k, v) :: values.filter (fun p => p.1 != k)

/-- `sync.Map.Load`. -/
def jobLoadValue : List (String × Nat) → String → Option Nat
  | [], _ => none
  | (k', v) :: t, k => if k' = k then some v else jobLoadValue t k

/-- `Job.EachValue` (jobs.go lines 831-837): a single `Load`; the
callback runs on the one stored value (if any).  Returns the callback's
result and the number of times the callback ran. -/
def jobEachValue (values : List (String × Nat)) (k : String)
    (fn : Nat → Option SErr) : Option SErr × Nat :=
  match jobLoadValue values k with
  | some v => (fn v, 1)
  | none => (none, 0)

/-- The `withProvenance` wrapper (jobs.go lines 725-729): the job
backing the walk (nil for sub-build results) and the built edge. -/
structure WithProvenance where
  j : Option String
  e : Option (Nat × Vtx)

/-- The wrapper `subBuilder.Build` returns (jobs.go line 280):
`&withProvenance{CachedResult: res}` — no job, zero-value edge. -/
def subBuilderBuildResult : WithProvenance :=
  { j := none, e := none }

/-- The wrapper `Job.Build` returns on success (jobs.go line 722):
`&withProvenance{CachedResult: res, j: j, e: e}`. -/
def jobBuildResult (j : String) (e : Nat × Vtx) : WithProvenance :=
  { j := some j, e := some e }

mutual

/-- `Job.walkProvenance` (jobs.go lines 742-765): DFS over the built
edge's vertex tree; on each unvisited active vertex whose resolved op
implements `ProvenanceProvider` (modelled through `opProv`), run `f`
and stop on its error.  Returns the error, the visited set and the
number of `f` invocations.  `fuel` bounds the tree depth. -/
def walkProv (fuel : Nat) (a : Reg) (opProv : String → Option Nat)
    (f : Nat → Option SErr) (e : Nat × Vtx) (visited : List String) :
    Option SErr × List String × Nat :=
  match fuel with
  | 0 => (none, visited, 0)
  | fuel + 1 =>
    if e.2.dgst ∈ visited then (none, visited, 0)
    else
      let visited₁ := e.2.dgst :: visited
      let fed :=
        match lookupReg a e.2.dgst with
        | none => (none, 0)
        | some _ =>
          match opProv e.2.dgst with
          | some p => (f p, 1)
          | none => (none, 0)
      match fed with
      | (some err, n) => (some err, visited₁, n)
      | (none, n) =>
        let (err, vis, m) := walkProvList fuel a opProv f e.2.inputs visited₁
        (err, vis, n + m)
termination_by (fuel, 0)

/-- The `for _, inp := range e.Vertex.Inputs()` loop of
`Job.walkProvenance`. -/
def walkProvList (fuel : Nat) (a : Reg) (opProv : String → Option Nat)
    (f : Nat → Option SErr) (l : List (Nat × Vtx)) (visited : List String) :
    Option SErr × List String × Nat :=
  match l with
  | [] => (none, visited, 0)
  | e :: rest =>
    match walkProv fuel a opProv f e visited with
    | (some err, vis, n) => (some err, vis, n)
    | (none, vis, n) =>
      let (err, vis', m) := walkProvList fuel a opProv f rest vis
      (err, vis', n + m)
termination_by (fuel, l.length + 1)

end

/-- `withProvenance.WalkProvenance` (jobs.go lines 731-739): nil job —
sub-build result — returns nil immediately; otherwise run the DFS from
the recorded edge.  Returns the error and the number of `f`
invocations. -/
def walkProvenance (fuel : Nat) (wp : WithProvenance) (a : Reg)
    (opProv : String → Option Nat) (f : Nat → Option SErr) : Option SErr × Nat :=
  match wp.j with
  | none => (none, 0)
  | some _ =>
    match wp.e with
    | none => (none, 0)
    | some e =>
      let (err, _, n) := walkProv fuel a opProv f e []
      (err, n)


theorem lookupReg_update (a : Reg) (d : String) (f : St → St) (x : String) :
    lookupReg (updateReg a d f) x =
      if x = d then (lookupReg a d).map f else lookupReg a x := by
  induction a with
  | nil => simp [lookupReg, updateReg]
  | cons p t ih =>
    obtain ⟨k, st⟩ := p
    by_cases hxd : x = d
    · subst hxd
      by_cases hkd : k = x <;> simp_all [lookupReg, updateReg]
    · by_cases hkd : k = d <;> by_cases hkx : k = x <;>
        simp_all [lookupReg, updateReg]

theorem lookupReg_erase (a : Reg) (d : String) (x : String) :
    lookupReg (eraseReg a d) x = if x = d then none else lookupReg a x := by
  induction a with
  | nil => simp [lookupReg, eraseReg]
  | cons p t ih =>
    obtain ⟨k, st⟩ := p
    by_cases hxd : x = d
    · subst hxd
      by_cases hkd : k = x <;> simp_all [lookupReg, eraseReg]
    · by_cases hkd : k = d <;> by_cases hkx : k = x <;>
        simp_all [lookupReg, eraseReg]

theorem lookupReg_insert (a : Reg) (d : String) (st : St) (x : String) :
    lookupReg (insertReg a d st) x = if d = x then some st else lookupReg a x := by
  simp [insertReg, lookupReg]

/-- C8: `Solver.Get(id)` either returns a job that was observed in the
jobs map at some wake-up inside the 6-second window, or — when every
observation before the timeout misses — the typed `UnknownJob` error;
these are the only outcomes, and the window constant is 6 seconds. -/
theorem solver_c8_get_two_outcomes :
    getTimeoutSeconds = 6 ∧
      ∀ (id : String) (obs : List (Option String)),
        (∃ j, solverGet id obs = .job j ∧ some j ∈ obs) ∨
          (solverGet id obs = .unknownJob id ∧ ∀ o ∈ obs, o = none) := by
  refine ⟨rfl, fun id obs => ?_⟩
  induction obs with
  | nil => exact Or.inr ⟨rfl, by simp⟩
  | cons o rest ih =>
    match o with
    | some j => exact Or.inl ⟨j, rfl, by simp⟩
    | none =>
      rcases ih with ⟨j, hj, hmem⟩ | ⟨h, hall⟩
      · exact Or.inl ⟨j, hj, List.mem_cons_of_mem _ hmem⟩
      · refine Or.inr ⟨h, fun x hx => ?_⟩
        rcases List.mem_cons.mp hx with hx | hx
        · exact hx
        · exact hall x hx

/-- Witness for C8 at a concrete observation trace. -/
theorem solver_c8_get_two_outcomes_witness :
    (∃ j, solverGet "a" [some "a"] = .job j ∧ some j ∈ [some "a"]) ∨
      (solverGet "a" [some "a"] = .unknownJob "a" ∧
        ∀ o ∈ [some "a"], o = none) :=
  solver_c8_get_two_outcomes.2 "a" [some "a"]

/-- C9: `Job.EachValue` runs the callback at most once — exactly once,
on the value most recently stored under the key, returning the
callback's result — and returns `nil` without running it when nothing
is stored. -/
theorem solver_c9_eachValue_at_most_once :
    (∀ values k v fn, jobEachValue (jobSetValue values k v) k fn = (fn v, 1)) ∧
      (∀ values k fn, jobLoadValue values k = none →
        jobEachValue values k fn = (none, 0)) ∧
      (∀ values k fn, (jobEachValue values k fn).2 ≤ 1) := by
  refine ⟨fun values k v fn => ?_, fun values k fn h => ?_, fun values k fn => ?_⟩
  · simp [jobEachValue, jobSetValue, jobLoadValue]
  · simp [jobEachValue, h]
  · unfold jobEachValue
    cases jobLoadValue values k <;> simp

/-- Witness for C9 at a concrete value store. -/
theorem solver_c9_eachValue_at_most_once_witness :
    jobLoadValue [] "k" = none ∧
      jobEachValue [] "k" (fun _ => none) = (none, 0) :=
  ⟨rfl, solver_c9_eachValue_at_most_once.2.1 [] "k" (fun _ => none) rfl⟩

/-- C10: a `CachedResultWithProvenance` produced by `subBuilder.Build`
walks trivially — `WalkProvenance` returns nil without invoking `f`,
because the wrapper carries no job reference — while a result returned
by `Job.Build` can drive a non-trivial walk. -/
theorem solver_c10_subbuild_walk_trivial :
    (∀ fuel a opProv f,
      walkProvenance fuel subBuilderBuildResult a opProv f = (none, 0)) ∧
      subBuilderBuildResult.j = none ∧
      (∃ fuel j e a opProv f n,
        walkProvenance fuel (jobBuildResult j e) a opProv f = (none, n) ∧ 0 < n) := by
  refine ⟨fun fuel a opProv f => rfl, rfl, ?_⟩
  refine ⟨2, "j", (0, Vtx.mk "d" false []),
    [("d", freshSt (Vtx.mk "d" false []) "d")],
    fun x => if x = "d" then some 0 else none, fun _ => none, 1, ?_, Nat.one_pos⟩
  simp [walkProvenance, walkProv, walkProvList, jobBuildResult, lookupReg,
    freshSt, Vtx.dgst, Vtx.inputs]

/-- C1: once an `Exec` has completed successfully (`execDone` with a
non-nil memoised result and no memoised error), every subsequent `Exec`
call returns the same memoised outputs and exporters with zero
`Op.Acquire`/`Op.Exec` invocations and an unchanged state — over any
remaining lifetime of calls, so `Op.Exec` runs no further time after
the success. -/
theorem solver_c1_exec_at_most_once
    (s : SharedOpSt) (m : ExecMemo)
    (hOp : s.opErr = none) (hDone : s.execDone = true)
    (hErr : s.execErr = none) (hRes : s.execRes = some m) :
    (∀ b, sharedOpExec s b =
      { outputs := some (m.outputs, m.exporters), err := none, st := s
        acquires := 0, execs := 0 }) ∧
      ∀ bs, execFold s bs =
        (s, 0, 0, bs.map fun _ => some (m.outputs, m.exporters)) := by
  have h1 : ∀ b, sharedOpExec s b =
      { outputs := some (m.outputs, m.exporters), err := none, st := s
        acquires := 0, execs := 0 } := by
    intro b
    simp [sharedOpExec, hOp, hDone, hErr, hRes]
  refine ⟨h1, fun bs => ?_⟩
  induction bs with
  | nil => simp [execFold]
  | cons b rest ih => simp [execFold, h1, ih]

/-- Witness for C1 at a concrete memoised state. -/
theorem solver_c1_exec_at_most_once_witness :
    (∀ b, sharedOpExec
        { opErr := none, execRes := some { outputs := [1], exporters := [2] }
          execDone := true, execErr := none, cacheRes := [], cacheDone := false
          cacheErr := none, subExporters := [] } b =
      { outputs := some ([1], [2]), err := none
        st := { opErr := none, execRes := some { outputs := [1], exporters := [2] }
                execDone := true, execErr := none, cacheRes := [], cacheDone := false
                cacheErr := none, subExporters := [] }
        acquires := 0, execs := 0 }) ∧
      ∀ bs, execFold
          { opErr := none, execRes := some { outputs := [1], exporters := [2] }
            execDone := true, execErr := none, cacheRes := [], cacheDone := false
            cacheErr := none, subExporters := [] } bs =
        ({ opErr := none, execRes := some { outputs := [1], exporters := [2] }
           execDone := true, execErr := none, cacheRes := [], cacheDone := false
           cacheErr := none, subExporters := [] }, 0, 0,
          bs.map fun _ => some ([1], [2])) :=
  solver_c1_exec_at_most_once _ { outputs := [1], exporters := [2] } rfl rfl rfl rfl

/-- C3 (amended): on a fresh single-flight state, a winning `Exec` that
fails with pure cancellation (context done and the error carries the
cancelled marker) is not memoised — `execDone`/`execErr` stay unset and
a later caller runs `Op.Exec` again; a non-cancellation error returned
by `Op.Exec` is memoised and handed (op/vertex-wrapped) to every later
caller with no further `Op` invocation; a failure of `Op.Acquire`,
however, is never memoised. -/
theorem solver_c3_cancellation_not_memoised
    (s : SharedOpSt) (hOp : s.opErr = none) (hDone : s.execDone = false) :
    (∀ b e, b.acquireErr = none → b.opErr = some e → b.ctxDone = true →
      b.canceled = true →
      sharedOpExec s b =
        { outputs := none, err := some (.vtxWrap (.opWrap (.cancelWrap e)))
          st := s, acquires := 1, execs := 1 } ∧
        ∀ b₂, b₂.acquireErr = none → ((sharedOpExec s b).st = s ∧
          (sharedOpExec (sharedOpExec s b).st b₂).execs = 1)) ∧
      (∀ b e, b.acquireErr = none → b.opErr = some e →
        (b.ctxDone = false ∨ b.canceled = false) →
        (sharedOpExec s b).st.execDone = true ∧
          (sharedOpExec s b).st.execErr = some e ∧
          (sharedOpExec s b).err = some (.vtxWrap (.opWrap e)) ∧
          ∀ b₂, sharedOpExec (sharedOpExec s b).st b₂ =
            { outputs := none, err := some (.vtxWrap (.opWrap e))
              st := (sharedOpExec s b).st, acquires := 0, execs := 0 }) ∧
      ∀ b e, b.acquireErr = some e →
        sharedOpExec s b =
          { outputs := none, err := some (.vtxWrap (.opWrap (.acquireWrap e)))
            st := s, acquires := 1, execs := 0 } := by
  refine ⟨fun b e hba hbe hbd hbc => ?_, fun b e hba hbe hrest => ?_,
    fun b e hba => ?_⟩
  · have hcall : sharedOpExec s b =
        { outputs := none, err := some (.vtxWrap (.opWrap (.cancelWrap e)))
          st := s, acquires := 1, execs := 1 } := by
      simp [sharedOpExec, hOp, hDone, hba, hbe, hbd, hbc, wrapOV]
    refine ⟨hcall, fun b₂ hb₂ => ⟨by rw [hcall], ?_⟩⟩
    rw [hcall]
    show (sharedOpExec s b₂).execs = 1
    simp [sharedOpExec, hOp, hDone, hb₂]
    split <;> first | rfl | (split <;> first | rfl | (split <;> rfl))
  · have hs' : (sharedOpExec s b).st =
        { s with execDone := true
                 execRes :=
                   match b.opRes with
                   | some outs => some { outputs := outs, exporters := s.subExporters }
                   | none => s.execRes
                 execErr := some e } := by
      rcases hrest with h | h <;>
        simp [sharedOpExec, hOp, hDone, hba, hbe, h, wrapOV]
    have herr : (sharedOpExec s b).err = some (.vtxWrap (.opWrap e)) := by
      rcases hrest with h | h <;>
        simp [sharedOpExec, hOp, hDone, hba, hbe, h, wrapOV]
    refine ⟨by rw [hs'], by rw [hs'], herr, fun b₂ => ?_⟩
    rw [hs']
    simp [sharedOpExec, hOp, wrapOV]
  · simp [sharedOpExec, hOp, hDone, hba, wrapOV]

/-- Counterexample to C3 as stated: an `Op.Acquire` failure is a
non-cancellation error of the winning call, yet it is not memoised
(`execDone`/`execErr` stay unset) and a later caller re-invokes the op
(`Op.Acquire` and `Op.Exec` run again). -/
theorem solver_c3_counterexample :
    (sharedOpExec
        { opErr := none, execRes := none, execDone := false, execErr := none
          cacheRes := [], cacheDone := false, cacheErr := none, subExporters := [] }
        { acquireErr := some (.code 3), opRes := none, opErr := none
          ctxDone := false, canceled := false }).err =
        some (.vtxWrap (.opWrap (.acquireWrap (.code 3)))) ∧
      (sharedOpExec
        { opErr := none, execRes := none, execDone := false, execErr := none
          cacheRes := [], cacheDone := false, cacheErr := none, subExporters := [] }
        { acquireErr := some (.code 3), opRes := none, opErr := none
          ctxDone := false, canceled := false }).st.execDone = false ∧
      (sharedOpExec
        { opErr := none, execRes := none, execDone := false, execErr := none
          cacheRes := [], cacheDone := false, cacheErr := none, subExporters := [] }
        { acquireErr := some (.code 3), opRes := none, opErr := none
          ctxDone := false, canceled := false }).st.execErr = none ∧
      (sharedOpExec
        (sharedOpExec
          { opErr := none, execRes := none, execDone := false, execErr := none
            cacheRes := [], cacheDone := false, cacheErr := none, subExporters := [] }
          { acquireErr := some (.code 3), opRes := none, opErr := none
            ctxDone := false, canceled := false }).st
        { acquireErr := none, opRes := some [7], opErr := none
          ctxDone := false, canceled := false }).execs = 1 := by
  refine ⟨rfl, rfl, rfl, rfl⟩

/-- Witness for C3 (amended) at a concrete fresh state and behaviours. -/
theorem solver_c3_cancellation_not_memoised_witness :
    sharedOpExec
        { opErr := none, execRes := none, execDone := false, execErr := none
          cacheRes := [], cacheDone := false, cacheErr := none, subExporters := [] }
        { acquireErr := none, opRes := none, opErr := some (.code 5)
          ctxDone := true, canceled := true } =
      { outputs := none, err := some (.vtxWrap (.opWrap (.cancelWrap (.code 5))))
        st := { opErr := none, execRes := none, execDone := false, execErr := none
                cacheRes := [], cacheDone := false, cacheErr := none
                subExporters := [] }
        acquires := 1, execs := 1 } :=
  ((solver_c3_cancellation_not_memoised _ rfl rfl).1
    { acquireErr := none, opRes := none, opErr := some (.code 5)
      ctxDone := true, canceled := true } (.code 5) rfl rfl rfl rfl).1


theorem cacheMapInner_invoked (s : SharedOpSt) (beh : Nat → CMBehavior) (index : Nat)
    (hskip : ¬ ((!s.cacheRes.isEmpty && s.cacheDone) ||
      decide (index < s.cacheRes.length)) = true)
    (hErr : s.cacheErr = none) :
    ∃ res err s', cacheMapInner s beh index = (res, err, s', [s.cacheRes.length]) := by
  unfold cacheMapInner
  rw [if_neg hskip, hErr]
  exact ⟨_, _, _, rfl⟩

theorem sharedOpCacheMap_no_silent_miss :
    ∀ (fuel : Nat) (s : SharedOpSt) (beh : Nat → CMBehavior) (index : Nat) o,
      sharedOpCacheMap fuel s beh index = some o → o.err = none → o.resp.isSome := by
  intro fuel
  induction fuel with
  | zero => intro s beh index o h; simp [sharedOpCacheMap] at h
  | succ fuel ih =>
    intro s beh index o h hne
    rw [sharedOpCacheMap] at h
    rcases hop : s.opErr with _ | e
    · rw [hop] at h
      simp only at h
      rcases hinner : cacheMapInner s beh index with ⟨res, err, s', inv⟩
      rw [hinner] at h
      rcases err with _ | e
      · simp only at h
        by_cases hlen : res.length ≤ index
        · rw [if_pos hlen] at h
          rcases hrec : sharedOpCacheMap fuel s' beh index with _ | o'
          · rw [hrec] at h; exact absurd h (by simp)
          · rw [hrec] at h
            simp only [Option.some.injEq] at h
            subst h
            exact ih s' beh index o' hrec hne
        · rw [if_neg hlen] at h
          simp only [Option.some.injEq] at h
          subst h
          simp
      · simp only [Option.some.injEq] at h
        subst h
        simp [wrapOV] at hne
    · rw [hop] at h
      simp only [Option.some.injEq] at h
      subst h
      simp [wrapOV] at hne

/-- C6 (amended): if the memoised array already contains `index`,
`CacheMap` returns that entry (complete = `cacheDone`) without invoking
`Op.CacheMap`; otherwise — provided no error is memoised in `cacheErr`
and the memo is not already complete with a shorter array —
`Op.CacheMap` runs with `len(cacheRes)` as its index argument; when the
single-flight callback succeeds but the array is still short, the call
re-enters itself rather than failing, and no completed error-free call
ever lacks the requested entry. -/
theorem solver_c6_cachemap_index
    (s : SharedOpSt) (beh : Nat → CMBehavior) (index fuel : Nat)
    (hOp : s.opErr = none) :
    (index < s.cacheRes.length →
      sharedOpCacheMap (fuel + 1) s beh index =
        some { resp := some (s.cacheRes.getD index 0, s.cacheDone), err := none
               st := s, invoked := [] }) ∧
      (¬ index < s.cacheRes.length → s.cacheErr = none →
        (s.cacheRes.isEmpty = true ∨ s.cacheDone = false) →
        ∀ o, sharedOpCacheMap (fuel + 1) s beh index = some o →
          o.invoked.head? = some s.cacheRes.length) ∧
      (∀ res s' inv, cacheMapInner s beh index = (res, none, s', inv) →
        res.length ≤ index →
        sharedOpCacheMap (fuel + 1) s beh index =
          (sharedOpCacheMap fuel s' beh index).map
            (fun o => { o with invoked := inv ++ o.invoked })) ∧
      ∀ o, sharedOpCacheMap (fuel + 1) s beh index = some o → o.err = none →
        o.resp.isSome := by
  refine ⟨fun hIdx => ?_, fun hIdx hErr hNC o ho => ?_, fun res s' inv hinner hlen => ?_,
    fun o ho hne => sharedOpCacheMap_no_silent_miss (fuel + 1) s beh index o ho hne⟩
  · rw [sharedOpCacheMap, hOp]
    have hinner : cacheMapInner s beh index = (s.cacheRes, none, s, []) := by
      unfold cacheMapInner
      rw [if_pos (by simp [hIdx])]
    rw [hinner]
    simp [Nat.not_le.mpr hIdx]
  · have hskip : ¬ ((!s.cacheRes.isEmpty && s.cacheDone) ||
        decide (index < s.cacheRes.length)) = true := by
      rcases hNC with h | h <;> simp [h, hIdx]
    obtain ⟨res, err, s', hinner⟩ := cacheMapInner_invoked s beh index hskip hErr
    rw [sharedOpCacheMap, hOp, hinner] at ho
    rcases err with _ | e
    · simp only at ho
      split at ho
      · rcases hrec : sharedOpCacheMap fuel s' beh index with _ | o' <;>
          rw [hrec] at ho
        · exact absurd ho (by simp)
        · simp only [Option.some.injEq] at ho
          subst ho
          simp
      · simp only [Option.some.injEq] at ho
        subst ho
        simp
    · simp only [Option.some.injEq] at ho
      subst ho
      simp
  · rw [sharedOpCacheMap, hOp, hinner]
    simp only [if_pos hlen]
    rcases hrec : sharedOpCacheMap fuel s' beh index with _ | o' <;> simp

/-- Counterexample to C6 as stated: with an error memoised in
`cacheErr` (and an index past the array), `CacheMap` returns the stored
error without ever invoking `Op.CacheMap`, contradicting "otherwise
Op.CacheMap is invoked with len(cacheRes)". -/
theorem solver_c6_counterexample :
    sharedOpCacheMap 5
        { opErr := none, execRes := none, execDone := false, execErr := none
          cacheRes := [], cacheDone := false, cacheErr := some (.code 7)
          subExporters := [] }
        (fun _ => { res := 9, done := true, err := none, ctxDone := false
                    canceled := false }) 0 =
      some { resp := none, err := some (.vtxWrap (.opWrap (.code 7)))
             st := { opErr := none, execRes := none, execDone := false
                     execErr := none, cacheRes := [], cacheDone := false
                     cacheErr := some (.code 7), subExporters := [] }
             invoked := [] } ∧
      ¬ (0 : Nat) < ([] : List Nat).length :=
  ⟨rfl, by simp⟩

/-- Witness for C6 (amended) at a concrete memoised state. -/
theorem solver_c6_cachemap_index_witness :
    sharedOpCacheMap 3
        { opErr := none, execRes := none, execDone := false, execErr := none
          cacheRes := [4, 5], cacheDone := true, cacheErr := none
          subExporters := [] }
        (fun _ => { res := 9, done := true, err := none, ctxDone := false
                    canceled := false }) 1 =
      some { resp := some (5, true), err := none
             st := { opErr := none, execRes := none, execDone := false
                     execErr := none, cacheRes := [4, 5], cacheDone := true
                     cacheErr := none, subExporters := [] }
             invoked := [] } :=
  (solver_c6_cachemap_index _ _ 1 2 rfl).1 (by simp)

theorem dgstWithoutCache_ne (d : String) : dgstWithoutCache d ≠ d := by
  intro h
  have hlen := congrArg String.length h
  simp [dgstWithoutCache, String.length_append] at hlen
  exact absurd hlen (by decide)

/-- C2: the ignore-cache dedup of `loadUnlocked` is asymmetric.  A
vertex with `IgnoreCache=true` whose digest keys an active
`IgnoreCache=false` state is rekeyed under `dgstWithoutCache` — the
existing state is not reused and (when nothing is keyed there) a fresh
separate state is created, leaving the old key untouched.  Conversely a
vertex whose `dgstWithoutCache` keys an active state reuses that state,
adopting its vertex object as the effective identity, whatever the
caller's IgnoreCache option. -/
theorem solver_c2_ignorecache_asymmetry
    (a : Reg) (v : Vtx) (inputs : List (Nat × Vtx)) :
    (∀ st, lookupReg a (dgstWithoutCache v.dgst) = none →
      lookupReg a v.dgst = some st → st.vtx.ignoreCache = false →
      v.ignoreCache = true →
      loadDedup a v inputs =
        (dgstWithoutCache v.dgst, dgstWithoutCache v.dgst,
          Vtx.mk (dgstWithoutCache v.dgst) true inputs, none) ∧
        dgstWithoutCache v.dgst ≠ v.dgst ∧
        ∀ jid, ∃ a',
          loadFinish a v inputs none (some jid) =
            .ok (Vtx.mk (dgstWithoutCache v.dgst) true inputs, a') ∧
          lookupReg a' (dgstWithoutCache v.dgst) =
            some { freshSt (Vtx.mk (dgstWithoutCache v.dgst) true inputs) v.dgst
                    with jobs := [jid] } ∧
          ∀ x, x ≠ dgstWithoutCache v.dgst → lookupReg a' x = lookupReg a x) ∧
      ∀ st, lookupReg a (dgstWithoutCache v.dgst) = some st →
        loadDedup a v inputs = (dgstWithoutCache v.dgst, v.dgst, st.vtx, some st) ∧
        ∀ jid, ∃ a',
          loadFinish a v inputs none (some jid) = .ok (st.vtx, a') ∧
          lookupReg a' (dgstWithoutCache v.dgst) =
            some { st with jobs := pushNew jid st.jobs } ∧
          ∀ x, x ≠ dgstWithoutCache v.dgst → lookupReg a' x = lookupReg a x := by
  constructor
  · intro st hnc h hig1 hig2
    have hD : loadDedup a v inputs =
        (dgstWithoutCache v.dgst, dgstWithoutCache v.dgst,
          Vtx.mk (dgstWithoutCache v.dgst) true inputs, none) := by
      simp [loadDedup, hnc, h, hig1, hig2]
    refine ⟨hD, dgstWithoutCache_ne v.dgst, fun jid => ?_⟩
    refine ⟨updateReg (insertReg a (dgstWithoutCache v.dgst)
        (freshSt (Vtx.mk (dgstWithoutCache v.dgst) true inputs) v.dgst))
        (dgstWithoutCache v.dgst)
        (fun st => { st with jobs := pushNew jid st.jobs }), ?_, ?_, ?_⟩
    · simp [loadFinish, loadRegister, hD]
    · simp [lookupReg_update, lookupReg_insert, insertReg, lookupReg, freshSt,
        pushNew]
    · intro x hx
      simp [lookupReg_update, hx, insertReg, lookupReg, Ne.symm hx]
  · intro st hnc
    have hD : loadDedup a v inputs =
        (dgstWithoutCache v.dgst, v.dgst, st.vtx, some st) := by
      simp [loadDedup, hnc]
    refine ⟨hD, fun jid => ?_⟩
    refine ⟨updateReg a (dgstWithoutCache v.dgst)
        (fun st => { st with jobs := pushNew jid st.jobs }), ?_, ?_, ?_⟩
    · simp [loadFinish, loadRegister, hD]
    · simp [lookupReg_update, hnc]
    · intro x hx
      simp [lookupReg_update, hx]

theorem pushNew_ne_nil {α : Type} [DecidableEq α] (x : α) (l : List α) :
    pushNew x l ≠ [] := by
  unfold pushNew
  split
  · intro h
    subst h
    simp_all
  · simp

theorem subCh_refl (a : Reg) : SubCh a a :=
  fun _ st h => ⟨st, h, rfl⟩

theorem subCh_trans {a b c : Reg} (h₁ : SubCh a b) (h₂ : SubCh b c) : SubCh a c := by
  intro d st h
  obtain ⟨st₁, hb, hc₁⟩ := h₂ d st h
  obtain ⟨st₀, ha, hc₀⟩ := h₁ d st₁ hb
  exact ⟨st₀, ha, hc₁.trans hc₀⟩

theorem subCh_update (a : Reg) (k : String) (f : St → St)
    (hf : ∀ st, (f st).childVtx = st.childVtx) : SubCh a (updateReg a k f) := by
  intro d st h
  rw [lookupReg_update] at h
  by_cases hdk : d = k
  · rw [if_pos hdk] at h
    rcases hl : lookupReg a k with _ | st₀ <;> rw [hl] at h
    · simp at h
    · simp only [Option.map_some', Option.some.injEq] at h
      exact ⟨st₀, by rw [hdk, hl], by rw [← h, hf]⟩
  · rw [if_neg hdk] at h
    exact ⟨st, h, rfl⟩

theorem subCh_erase (a : Reg) (k : String) : SubCh a (eraseReg a k) := by
  intro d st h
  rw [lookupReg_erase] at h
  by_cases hdk : d = k
  · rw [if_pos hdk] at h; simp at h
  · rw [if_neg hdk] at h; exact ⟨st, h, rfl⟩

theorem rankOK_of_subCh {a b : Reg} {rank : String → Nat}
    (hsub : SubCh a b) (hr : RankOK a rank) : RankOK b rank := by
  intro d st h ch hch
  obtain ⟨st₀, ha, hc⟩ := hsub d st h
  exact hr d st₀ ha ch (hc ▸ hch)

theorem deleteIfUnreferenced_live :
    ∀ (fuel : Nat) (k : String) (a : Reg) (rank : String → Nat)
      (E : String → Prop),
      RankOK a rank → rank k < fuel →
      (∀ d st, lookupReg a d = some st → ¬ E d → d ≠ k → LiveSt st) →
      (∀ d st, lookupReg (deleteIfUnreferenced fuel k a) d = some st →
        ¬ E d → LiveSt st) ∧
        SubCh a (deleteIfUnreferenced fuel k a) := by
  intro fuel
  induction fuel with
  | zero =>
    intro k a rank E hr hf hl
    exact absurd hf (Nat.not_lt_zero _)
  | succ fuel ih =>
    have hch : ∀ (cs : List String) (k : String) (a : Reg) (rank : String → Nat)
        (E : String → Prop),
        RankOK a rank → (∀ ch ∈ cs, rank ch < fuel) →
        (∀ d st, lookupReg a d = some st → ¬ E d → LiveSt st) →
        (∀ d st, lookupReg (delChildren fuel k cs a) d = some st →
          ¬ E d → LiveSt st) ∧
          SubCh a (delChildren fuel k cs a) := by
      intro cs
      induction cs with
      | nil =>
        intro k a rank E hr hcs hl
        rw [delChildren]
        exact ⟨hl, subCh_refl a⟩
      | cons ch rest ihc =>
        intro k a rank E hr hcs hl
        rw [delChildren]
        rcases hlk : lookupReg a ch with _ | chst
        · exact ihc k a rank E hr (fun c hc => hcs c (List.mem_cons_of_mem _ hc)) hl
        · have hsub₁ : SubCh a
              (updateReg a ch (fun st => { st with parents := st.parents.erase k })) :=
            subCh_update _ _ _ (fun _ => rfl)
          have hr₁ : RankOK
              (updateReg a ch (fun st => { st with parents := st.parents.erase k }))
              rank := rankOK_of_subCh hsub₁ hr
          have hl₁ : ∀ d st, lookupReg
              (updateReg a ch (fun st => { st with parents := st.parents.erase k }))
              d = some st → ¬ E d → d ≠ ch → LiveSt st := by
            intro d st h hE hne
            rw [lookupReg_update, if_neg hne] at h
            exact hl d st h hE
          obtain ⟨hl₂, hsub₂⟩ := ih ch
            (updateReg a ch (fun st => { st with parents := st.parents.erase k }))
            rank E hr₁ (hcs ch (List.mem_cons_self _ _)) hl₁
          have hr₂ : RankOK (deleteIfUnreferenced fuel ch
              (updateReg a ch (fun st => { st with parents := st.parents.erase k })))
              rank := rankOK_of_subCh hsub₂ hr₁
          obtain ⟨hl₃, hsub₃⟩ := ihc k _ rank E hr₂
            (fun c hc => hcs c (List.mem_cons_of_mem _ hc)) hl₂
          exact ⟨hl₃, subCh_trans (subCh_trans hsub₁ hsub₂) hsub₃⟩
    intro k a rank E hr hf hl
    rw [deleteIfUnreferenced]
    rcases hlk : lookupReg a k with _ | st
    · refine ⟨fun d st h hE => ?_, subCh_refl a⟩
      rcases eq_or_ne d k with hdk | hdk
      · rw [hdk, hlk] at h; exact absurd h (by simp)
      · exact hl d st h hE hdk
    · dsimp only
      by_cases hdead : (st.jobs.isEmpty && st.parents.isEmpty) = true
      · rw [if_pos hdead]
        have hcs : ∀ ch ∈ st.childVtx, rank ch < fuel := by
          intro ch hchm
          have h1 := hr k st hlk ch hchm
          omega
        obtain ⟨hl', hsub'⟩ := hch st.childVtx k a rank (fun d => E d ∨ d = k) hr hcs
          (fun d st' h hE => hl d st' h (fun he => hE (Or.inl he))
            (fun he => hE (Or.inr he)))
        refine ⟨?_, subCh_trans hsub' (subCh_erase _ k)⟩
        intro d st' h hE
        rw [lookupReg_erase] at h
        rcases eq_or_ne d k with hdk | hdk
        · rw [if_pos hdk] at h; exact absurd h (by simp)
        · rw [if_neg hdk] at h
          exact hl' d st' h (fun hor => hor.elim hE hdk)
      · rw [if_neg hdead]
        refine ⟨fun d st' h hE => ?_, subCh_refl a⟩
        rcases eq_or_ne d k with hdk | hdk
        · rw [hdk, hlk] at h
          obtain rfl : st = st' := by simpa using h
          simp only [Bool.and_eq_true, List.isEmpty_iff] at hdead
          unfold LiveSt
          tauto
        · exact hl d st' h hE hdk

theorem invReg_update_live (a : Reg) (k : String) (f : St → St)
    (hf : ∀ st, LiveSt st → LiveSt (f st)) (hinv : InvReg a) :
    InvReg (updateReg a k f) := by
  intro d st h
  rw [lookupReg_update] at h
  by_cases hdk : d = k
  · rw [if_pos hdk] at h
    rcases hl : lookupReg a k with _ | st₀ <;> rw [hl] at h
    · exact absurd h (by simp)
    · simp only [Option.map_some', Option.some.injEq] at h
      exact h ▸ hf st₀ (hinv k st₀ hl)
  · rw [if_neg hdk] at h
    exact hinv d st h

theorem discardGo_inv :
    ∀ (ks : List String) (fuel : Nat) (j : String) (a : Reg) (rank : String → Nat),
      RankOK a rank → (∀ d, rank d < fuel) → InvReg a →
      InvReg (discardGo fuel j ks a) ∧ SubCh a (discardGo fuel j ks a) := by
  intro ks
  induction ks with
  | nil =>
    intro fuel j a rank hr hf hinv
    rw [discardGo]
    exact ⟨hinv, subCh_refl a⟩
  | cons k rest ihk =>
    intro fuel j a rank hr hf hinv
    rw [discardGo]
    rcases hlk : lookupReg a k with _ | st
    · exact ihk fuel j a rank hr hf hinv
    · dsimp only
      by_cases hjin : j ∈ st.jobs
      · rw [if_pos hjin]
        have hsub₁ : SubCh a
            (updateReg a k (fun st => { st with jobs := st.jobs.erase j })) :=
          subCh_update _ _ _ (fun _ => rfl)
        have hr₁ : RankOK
            (updateReg a k (fun st => { st with jobs := st.jobs.erase j })) rank :=
          rankOK_of_subCh hsub₁ hr
        have hl₁ : ∀ d st', lookupReg
            (updateReg a k (fun st => { st with jobs := st.jobs.erase j }))
            d = some st' → ¬ False → d ≠ k → LiveSt st' := by
          intro d st' h _ hne
          rw [lookupReg_update, if_neg hne] at h
          exact hinv d st' h
        obtain ⟨hl₂, hsub₂⟩ := deleteIfUnreferenced_live fuel k
          (updateReg a k (fun st => { st with jobs := st.jobs.erase j }))
          rank (fun _ => False) hr₁ (hf k) hl₁
        have hinv₂ : InvReg (deleteIfUnreferenced fuel k
            (updateReg a k (fun st => { st with jobs := st.jobs.erase j }))) :=
          fun d st' h => hl₂ d st' h (fun hfalse => hfalse)
        have hsub₃ : SubCh (deleteIfUnreferenced fuel k
            (updateReg a k (fun st => { st with jobs := st.jobs.erase j })))
            (removePw (deleteIfUnreferenced fuel k
              (updateReg a k (fun st => { st with jobs := st.jobs.erase j }))) k j) :=
          subCh_update _ _ _ (fun _ => rfl)
        have hinv₃ : InvReg (removePw (deleteIfUnreferenced fuel k
            (updateReg a k (fun st => { st with jobs := st.jobs.erase j }))) k j) :=
          invReg_update_live _ _ _ (fun _ h => h) hinv₂
        have hr₃ := rankOK_of_subCh hsub₃ (rankOK_of_subCh hsub₂ hr₁)
        obtain ⟨hinv₄, hsub₄⟩ := ihk fuel j _ rank hr₃ hf hinv₃
        exact ⟨hinv₄,
          subCh_trans (subCh_trans (subCh_trans hsub₁ hsub₂) hsub₃) hsub₄⟩
      · rw [if_neg hjin]
        have hsub₁ : SubCh a (removePw a k j) := subCh_update _ _ _ (fun _ => rfl)
        have hinv₁ : InvReg (removePw a k j) :=
          invReg_update_live _ _ _ (fun _ h => h) hinv
        have hr₁ := rankOK_of_subCh hsub₁ hr
        obtain ⟨hinv₂, hsub₂⟩ := ihk fuel j _ rank hr₁ hf hinv₁
        exact ⟨hinv₂, subCh_trans hsub₁ hsub₂⟩

theorem loadDedup_entry (a : Reg) (v : Vtx) (inputs : List (Nat × Vtx))
    {ek dv : String} {v' : Vtx} {so : Option St}
    (h : loadDedup a v inputs = (ek, dv, v', so)) : lookupReg a ek = so := by
  simp only [loadDedup] at h
  rcases hlk : lookupReg a (dgstWithoutCache v.dgst) with _ | st <;> rw [hlk] at h <;>
    simp only [Prod.mk.injEq] at h
  · obtain ⟨h1, _, _, h4⟩ := h
    rw [← h1]
    exact h4
  · obtain ⟨h1, _, _, h4⟩ := h
    rw [← h1, hlk]
    exact h4

theorem loadLinkParent_inv (a₂ : Reg) (ek dv : String) (p : Vtx) (vv v' : Vtx)
    (a' : Reg) (st₂ : St) (hek : lookupReg a₂ ek = some st₂)
    (hlive : ∀ d st, lookupReg a₂ d = some st → d ≠ ek → LiveSt st)
    (h : loadLinkParent a₂ ek dv p vv = .ok (v', a')) : InvReg a' := by
  unfold loadLinkParent at h
  rw [hek] at h
  dsimp only at h
  by_cases hpm : p.dgst ∈ st₂.parents
  · rw [if_pos hpm] at h
    simp only [Except.ok.injEq, Prod.mk.injEq] at h
    obtain ⟨-, h2⟩ := h
    subst h2
    intro d st hd
    rcases eq_or_ne d ek with hde | hde
    · rw [hde, hek] at hd
      obtain rfl : st₂ = st := by simpa using hd
      exact Or.inr (List.ne_nil_of_mem hpm)
    · exact hlive d st hd hde
  · rw [if_neg hpm] at h
    rcases h3 : lookupReg (updateReg a₂ ek
        (fun st => { st with parents := pushNew p.dgst st.parents })) p.dgst
      with _ | ps <;> rw [h3] at h
    · exact absurd h (by simp)
    · simp only [Except.ok.injEq, Prod.mk.injEq] at h
      obtain ⟨-, h2⟩ := h
      subst h2
      intro d st hd
      rw [lookupReg_update] at hd
      rcases eq_or_ne d p.dgst with hdp | hdp
      · rw [if_pos hdp, h3] at hd
        simp only [Option.map_some', Option.some.injEq] at hd
        subst hd
        have hps : LiveSt ps := by
          rw [lookupReg_update] at h3
          rcases eq_or_ne p.dgst ek with hpe | hpe
          · rw [if_pos hpe, hek] at h3
            simp only [Option.map_some', Option.some.injEq] at h3
            subst h3
            exact Or.inr (pushNew_ne_nil _ _)
          · rw [if_neg hpe] at h3
            exact hlive p.dgst ps h3 hpe
        exact hps
      · rw [if_neg hdp] at hd
        rw [lookupReg_update] at hd
        rcases eq_or_ne d ek with hde | hde
        · rw [if_pos hde, hek] at hd
          simp only [Option.map_some', Option.some.injEq] at hd
          subst hd
          exact Or.inr (pushNew_ne_nil _ _)
        · rw [if_neg hde] at hd
          exact hlive d st hd hde

theorem loadRegister_inv (a₁ : Reg) (ek dv : String) (parent : Option Vtx)
    (jid : Option String) (vv v' : Vtx) (a' : Reg) (st₁ : St)
    (hjp : jid.isSome ∨ parent.isSome)
    (hst₁ : lookupReg a₁ ek = some st₁)
    (hlive : ∀ d st, lookupReg a₁ d = some st → d ≠ ek → LiveSt st)
    (h : loadRegister a₁ ek dv parent jid vv = .ok (v', a')) : InvReg a' := by
  unfold loadRegister at h
  rcases jid with _ | j
  · rcases parent with _ | p
    · simp at hjp
    · dsimp only at h
      exact loadLinkParent_inv a₁ ek dv p vv v' a' st₁ hst₁ hlive h
  · dsimp only at h
    have hA2 : lookupReg (updateReg a₁ ek
        (fun st => { st with jobs := pushNew j st.jobs })) ek =
        some { st₁ with jobs := pushNew j st₁.jobs } := by
      rw [lookupReg_update, if_pos rfl, hst₁]
      rfl
    have hA2live : ∀ d st, lookupReg (updateReg a₁ ek
        (fun st => { st with jobs := pushNew j st.jobs })) d = some st →
        d ≠ ek → LiveSt st := by
      intro d st hd hde
      rw [lookupReg_update, if_neg hde] at hd
      exact hlive d st hd hde
    rcases parent with _ | p
    · simp only [Except.ok.injEq, Prod.mk.injEq] at h
      obtain ⟨-, h2⟩ := h
      subst h2
      intro d st hd
      rcases eq_or_ne d ek with hde | hde
      · rw [hde, hA2] at hd
        obtain rfl : _ = st := by simpa using hd
        exact Or.inl (pushNew_ne_nil _ _)
      · exact hA2live d st hd hde
    · exact loadLinkParent_inv _ ek dv p vv v' a' _ hA2 hA2live h

theorem loadFinish_inv (a : Reg) (v : Vtx) (inputs : List (Nat × Vtx))
    (parent : Option Vtx) (jid : Option String) (v' : Vtx) (a' : Reg)
    (hjp : jid.isSome ∨ parent.isSome) (hinv : InvReg a)
    (h : loadFinish a v inputs parent jid = .ok (v', a')) : InvReg a' := by
  unfold loadFinish at h
  rcases hD : loadDedup a v inputs with ⟨ek, dv, vv, so⟩
  rw [hD] at h
  dsimp only at h
  have hso := loadDedup_entry a v inputs hD
  rcases so with _ | st₀
  · refine loadRegister_inv _ ek dv parent jid vv v' a' (freshSt vv v.dgst) hjp
      (by simp [lookupReg_insert]) ?_ h
    intro d st hd hde
    rw [lookupReg_insert, if_neg (Ne.symm hde)] at hd
    exact hinv d st hd
  · exact loadRegister_inv _ ek dv parent jid vv v' a' st₀ hjp hso
      (fun d st hd _ => hinv d st hd) h

theorem loadU_inv :
    ∀ (fuel : Nat),
      (∀ (a : Reg) (memo : LoadMemo) (parent : Option Vtx) (jid : Option String)
        (v v' : Vtx) (a' : Reg) (m' : LoadMemo),
        InvReg a → (jid.isSome ∨ parent.isSome) →
        loadU fuel a memo parent jid v = .ok (v', a', m') → InvReg a') ∧
      (∀ (a : Reg) (memo : LoadMemo) (parent : Option Vtx) (jid : Option String)
        (l l' : List (Nat × Vtx)) (a' : Reg) (m' : LoadMemo),
        InvReg a → (jid.isSome ∨ parent.isSome) →
        loadUInputs fuel a memo parent jid l = .ok (l', a', m') → InvReg a') := by
  intro fuel
  induction fuel with
  | zero =>
    constructor
    · intro a memo parent jid v v' a' m' _ _ h
      rw [loadU] at h
      exact absurd h (by simp)
    · intro a memo parent jid l l' a' m' hinv hjp h
      match l with
      | [] =>
        rw [loadUInputs] at h
        simp only [Except.ok.injEq, Prod.mk.injEq] at h
        obtain ⟨-, h2, -⟩ := h
        exact h2 ▸ hinv
      | (idx, iv) :: rest =>
        rw [loadUInputs] at h
        have h0 : loadU 0 a memo parent jid iv = .error "recursion limit" := by
          rw [loadU]
        rw [h0] at h
        exact absurd h (by simp)
  | succ fuel ih =>
    have hU : ∀ (a : Reg) (memo : LoadMemo) (parent : Option Vtx)
        (jid : Option String) (v v' : Vtx) (a' : Reg) (m' : LoadMemo),
        InvReg a → (jid.isSome ∨ parent.isSome) →
        loadU (fuel + 1) a memo parent jid v = .ok (v', a', m') → InvReg a' := by
      intro a memo parent jid v v' a' m' hinv hjp h
      rw [loadU] at h
      rcases hm : lookupMemo memo v with _ | vm <;> rw [hm] at h
      · dsimp only at h
        rcases hi : loadUInputs fuel a memo parent jid v.inputs
          with e | ⟨inputs', a₁, memo₁⟩ <;> rw [hi] at h
        · exact absurd h (by simp)
        · dsimp only at h
          rcases hf : loadFinish a₁ v inputs' parent jid with e | ⟨vv, a₂⟩ <;>
            rw [hf] at h
          · exact absurd h (by simp)
          · simp only [Except.ok.injEq, Prod.mk.injEq] at h
            obtain ⟨-, h2, -⟩ := h
            have hinv₁ := ih.2 a memo parent jid v.inputs inputs' a₁ memo₁ hinv hjp hi
            exact h2 ▸ loadFinish_inv a₁ v inputs' parent jid vv a₂ hjp hinv₁ hf
      · simp only [Except.ok.injEq, Prod.mk.injEq] at h
        obtain ⟨-, h2, -⟩ := h
        exact h2 ▸ hinv
    refine ⟨hU, ?_⟩
    intro a memo parent jid l
    induction l generalizing a memo with
    | nil =>
      intro l' a' m' hinv hjp h
      rw [loadUInputs] at h
      simp only [Except.ok.injEq, Prod.mk.injEq] at h
      obtain ⟨-, h2, -⟩ := h
      exact h2 ▸ hinv
    | cons p rest ihl =>
      obtain ⟨idx, iv⟩ := p
      intro l' a' m' hinv hjp h
      rw [loadUInputs] at h
      rcases h1 : loadU (fuel + 1) a memo parent jid iv with e | ⟨iv', a₁, memo₁⟩ <;>
        rw [h1] at h
      · exact absurd h (by simp)
      · dsimp only at h
        rcases h2 : loadUInputs (fuel + 1) a₁ memo₁ parent jid rest
          with e | ⟨rest', a₂, memo₂⟩ <;> rw [h2] at h
        · exact absurd h (by simp)
        · simp only [Except.ok.injEq, Prod.mk.injEq] at h
          obtain ⟨-, ha, -⟩ := h
          have hinv₁ := hU a memo parent jid iv iv' a₁ memo₁ hinv hjp h1
          exact ha ▸ ihl a₁ memo₁ rest' a₂ memo₂ hinv₁ hjp h2

/-- C4: the registry membership invariant — every state present in
`actives` has a non-empty `jobs` or `parents` set — holds after every
completed `deleteIfUnreferenced` (given it held for every other key and
the childVtx graph is ranked acyclic with enough fuel for the
recursion), after every completed `Job.Discard`, and after every
completed load. -/
theorem solver_c4_registry_invariant :
    (∀ (fuel : Nat) (k : String) (a : Reg) (rank : String → Nat),
      RankOK a rank → rank k < fuel →
      (∀ d st, lookupReg a d = some st → d ≠ k → LiveSt st) →
      InvReg (deleteIfUnreferenced fuel k a)) ∧
      (∀ (fuel : Nat) (j : String) (a : Reg) (rank : String → Nat),
        RankOK a rank → (∀ d, rank d < fuel) → InvReg a →
        InvReg (discardJob fuel j a)) ∧
      ∀ (fuel : Nat) (a : Reg) (memo : LoadMemo) (parent : Option Vtx)
        (jid : Option String) (v v' : Vtx) (a' : Reg) (m' : LoadMemo),
        InvReg a → (jid.isSome ∨ parent.isSome) →
        loadU fuel a memo parent jid v = .ok (v', a', m') → InvReg a' := by
  refine ⟨fun fuel k a rank hr hf hl => ?_, fun fuel j a rank hr hf hinv => ?_,
    fun fuel a memo parent jid v v' a' m' hinv hjp h =>
      (loadU_inv fuel).1 a memo parent jid v v' a' m' hinv hjp h⟩
  · have hmain := deleteIfUnreferenced_live fuel k a rank (fun _ => False) hr hf
      (fun d st h _ hne => hl d st h hne)
    exact fun d st h => hmain.1 d st h (fun hfalse => hfalse)
  · exact (discardGo_inv (a.map Prod.fst) fuel j a rank hr hf hinv).1

/-- Witness for C4: the invariant after a teardown of a dead state,
after a discard, and after a concrete completed load. -/
theorem solver_c4_registry_invariant_witness :
    InvReg (deleteIfUnreferenced 1 "k" []) ∧
      InvReg (discardJob 1 "j" []) ∧
      (loadU 1 [] [] none (some "j") (Vtx.mk "d" false []) =
        .ok (Vtx.mk "d" false [],
          [("d", { jobs := ["j"], parents := [], childVtx := []
                   vtx := Vtx.mk "d" false [], origDigest := "d", edges := []
                   allPw := [], mpw := [] })],
          [(Vtx.mk "d" false [], Vtx.mk "d" false [])]) ∧
        InvReg [("d", { jobs := ["j"], parents := [], childVtx := []
                        vtx := Vtx.mk "d" false [], origDigest := "d", edges := []
                        allPw := [], mpw := [] })]) := by
  have hload : loadU 1 [] [] none (some "j") (Vtx.mk "d" false []) =
      .ok (Vtx.mk "d" false [],
        [("d", { jobs := ["j"], parents := [], childVtx := []
                 vtx := Vtx.mk "d" false [], origDigest := "d", edges := []
                 allPw := [], mpw := [] })],
        [(Vtx.mk "d" false [], Vtx.mk "d" false [])]) := by
    rw [loadU]
    simp [lookupMemo, loadUInputs, loadFinish, loadRegister, loadDedup,
      lookupReg, insertReg, updateReg, freshSt, pushNew, dgstWithoutCache,
      Vtx.dgst, Vtx.inputs, Vtx.ignoreCache]
  refine ⟨?_, ?_, hload, ?_⟩
  · exact solver_c4_registry_invariant.1 1 "k" [] (fun _ => 0)
      (fun d st h => by simp [lookupReg] at h) Nat.one_pos
      (fun d st h => by simp [lookupReg] at h)
  · exact solver_c4_registry_invariant.2.1 1 "j" [] (fun _ => 0)
      (fun d st h => by simp [lookupReg] at h) (fun _ => Nat.one_pos)
      (fun d st h => by simp [lookupReg] at h)
  · exact solver_c4_registry_invariant.2.2 1 [] [] none (some "j")
      (Vtx.mk "d" false []) _ _ _
      (fun d st h => by simp [lookupReg] at h) (Or.inl rfl) hload

/-- Witness for C2: an `IgnoreCache=true` vertex meeting an active
`IgnoreCache=false` state under the same digest. -/
theorem solver_c2_ignorecache_asymmetry_witness :
    lookupReg [("d", freshSt (Vtx.mk "d" false []) "d")]
        (dgstWithoutCache (Vtx.mk "d" true []).dgst) = none ∧
      (loadDedup [("d", freshSt (Vtx.mk "d" false []) "d")] (Vtx.mk "d" true []) [] =
        (dgstWithoutCache "d", dgstWithoutCache "d",
          Vtx.mk (dgstWithoutCache "d") true [], none) ∧
        dgstWithoutCache "d" ≠ "d" ∧
        ∀ jid, ∃ a',
          loadFinish [("d", freshSt (Vtx.mk "d" false []) "d")] (Vtx.mk "d" true [])
              [] none (some jid) =
            .ok (Vtx.mk (dgstWithoutCache "d") true [], a') ∧
          lookupReg a' (dgstWithoutCache "d") =
            some { freshSt (Vtx.mk (dgstWithoutCache "d") true []) "d"
                    with jobs := [jid] } ∧
          ∀ x, x ≠ dgstWithoutCache "d" →
            lookupReg a' x = lookupReg [("d", freshSt (Vtx.mk "d" false []) "d")] x) := by
  have h1 : lookupReg [("d", freshSt (Vtx.mk "d" false []) "d")]
      (dgstWithoutCache (Vtx.mk "d" true []).dgst) = none := by
    simp [lookupReg, dgstWithoutCache, Vtx.dgst]
  exact ⟨h1,
    (solver_c2_ignorecache_asymmetry [("d", freshSt (Vtx.mk "d" false []) "d")]
      (Vtx.mk "d" true []) []).1 (freshSt (Vtx.mk "d" false []) "d") h1
      (by simp [lookupReg, Vtx.dgst]) rfl rfl⟩

theorem lookupNat_update {β : Type} (l : List (Nat × β)) (i : Nat) (f : β → β)
    (x : Nat) :
    lookupNat (updateNat l i f) x =
      if x = i then (lookupNat l i).map f else lookupNat l x := by
  induction l with
  | nil => simp [lookupNat, updateNat]
  | cons p t ih =>
    obtain ⟨k, b⟩ := p
    by_cases hxi : x = i
    · subst hxi
      by_cases hki : k = x <;> simp_all [lookupNat, updateNat]
    · by_cases hki : k = i <;> by_cases hkx : k = x <;>
        simp_all [lookupNat, updateNat]

theorem ownerOf_takeOwnership_ne (ar : Arena) (t r x : Nat) (hx : x ≠ r) :
    ownerOf (takeOwnership ar t r) x = ownerOf ar x := by
  unfold ownerOf lookupArena takeOwnership
  dsimp only
  rw [lookupNat_update, if_neg hx]

theorem ownerOf_takeOwnership_self (ar : Arena) (t r : Nat)
    (hpres : (lookupArena ar r).isSome) :
    ownerOf (takeOwnership ar t r) r = some t := by
  obtain ⟨rec, hrec⟩ := Option.isSome_iff_exists.mp hpres
  unfold ownerOf lookupArena takeOwnership
  dsimp only
  rw [lookupNat_update, if_pos rfl]
  unfold lookupArena at hrec
  rw [hrec]
  rfl

theorem chainReaches_resolveOwner (ar : Arena) :
    ∀ (cf eid : Nat), ChainReaches ar eid (resolveOwner ar cf eid) := by
  intro cf
  induction cf with
  | zero => intro eid; exact ChainReaches.here eid
  | succ cf ih =>
    intro eid
    rw [resolveOwner]
    rcases ho : ownerOf ar eid with _ | o
    · exact ChainReaches.here eid
    · exact ChainReaches.step ho (ih o)

theorem chainReaches_takeOwnership (ar : Arena) (t : Nat) :
    ∀ (cf eid : Nat),
      ownerOf ar (resolveOwner ar cf eid) = none →
      (lookupArena ar (resolveOwner ar cf eid)).isSome →
      ChainReaches (takeOwnership ar t (resolveOwner ar cf eid)) eid t := by
  intro cf
  induction cf with
  | zero =>
    intro eid hend hpres
    rw [resolveOwner] at hend hpres ⊢
    exact ChainReaches.step (ownerOf_takeOwnership_self ar t eid hpres)
      (ChainReaches.here t)
  | succ cf ih =>
    intro eid hend hpres
    rw [resolveOwner] at hend hpres ⊢
    rcases ho : ownerOf ar eid with _ | o <;> rw [ho] at hend hpres <;>
      dsimp only at hend hpres ⊢
    · exact ChainReaches.step (ownerOf_takeOwnership_self ar t eid hpres)
        (ChainReaches.here t)
    · have hne : eid ≠ resolveOwner ar cf o := by
        intro he2
        rw [← he2, ho] at hend
        exact absurd hend (by simp)
      exact ChainReaches.step
        (by rw [ownerOf_takeOwnership_ne ar t _ eid hne]; exact ho)
        (ih o hend hpres)

/-- C7: when the representative edge's vertex digest has no state in
`actives`, `Solver.setEdge` still succeeds at the edge-pointer level —
afterwards the edge at `e.Index` on `e`'s state follows its owner chain
to `targetEdge` — but performs no other bookkeeping: the `jobs`,
`allPw` and `mpw` of every state are unchanged. -/
theorem solver_c7_setEdge_nil_target
    (fuel cf : Nat) (a : Reg) (ar : Arena) (eDgst : String) (eIdx : Nat)
    (targetEid : Nat) (s : St)
    (hs : lookupReg a eDgst = some s)
    (htk : lookupReg a (edgeDgst ar targetEid) = none)
    (hresolved : ∀ eid, lookupNat s.edges eIdx = some eid →
      ownerOf ar (resolveOwner ar cf eid) = none ∧
        (lookupArena ar (resolveOwner ar cf eid)).isSome) :
    (∀ d st', lookupReg (solverSetEdge fuel cf a ar eDgst eIdx targetEid).1 d =
        some st' →
      ∃ st₀, lookupReg a d = some st₀ ∧ st'.jobs = st₀.jobs ∧
        st'.allPw = st₀.allPw ∧ st'.mpw = st₀.mpw) ∧
      ∃ s' eid, lookupReg (solverSetEdge fuel cf a ar eDgst eIdx targetEid).1
          eDgst = some s' ∧
        lookupNat s'.edges eIdx = some eid ∧
        ChainReaches (solverSetEdge fuel cf a ar eDgst eIdx targetEid).2 eid
          targetEid := by
  have hmain : solverSetEdge fuel cf a ar eDgst eIdx targetEid =
      stateSetEdge fuel cf a ar eDgst eIdx targetEid none := by
    unfold solverSetEdge
    rw [hs]
    dsimp only
    rw [htk]
    rfl
  rw [hmain]
  unfold stateSetEdge
  rw [hs]
  dsimp only
  rcases he : lookupNat s.edges eIdx with _ | eid
  · -- no edge yet: allocate, then hand to target
    dsimp only [allocEdge]
    constructor
    · intro d st' hd
      rw [lookupReg_update] at hd
      by_cases hde : d = eDgst
      · rw [if_pos hde, hs] at hd
        simp only [Option.map_some', Option.some.injEq] at hd
        subst hd
        exact ⟨s, by rw [hde, hs], rfl, rfl, rfl⟩
      · rw [if_neg hde] at hd
        exact ⟨st', hd, rfl, rfl, rfl⟩
    · refine ⟨{ s with edges := (eIdx, ar.next) :: s.edges }, ar.next, ?_, ?_, ?_⟩
      · rw [lookupReg_update, if_pos rfl, hs]
        rfl
      · simp [lookupNat]
      · refine ChainReaches.step ?_ (ChainReaches.here targetEid)
        unfold ownerOf lookupArena takeOwnership
        dsimp only
        rw [lookupNat_update, if_pos rfl]
        simp [lookupNat]
  · have hend := (hresolved eid he).1
    have hpres := (hresolved eid he).2
    dsimp only
    by_cases heq : (resolveOwner ar cf eid == targetEid) = true
    · rw [if_pos heq]
      refine ⟨fun d st' hd => ⟨st', hd, rfl, rfl, rfl⟩,
        s, eid, hs, he, ?_⟩
      have heq2 : resolveOwner ar cf eid = targetEid := by simpa using heq
      have h2 : ChainReaches ar eid targetEid :=
        heq2 ▸ chainReaches_resolveOwner ar cf eid
      exact h2
    · rw [if_neg heq]
      exact ⟨fun d st' hd => ⟨st', hd, rfl, rfl, rfl⟩,
        s, eid, hs, he, chainReaches_takeOwnership ar targetEid cf eid hend hpres⟩

/-- Witness for C7 at a concrete one-state registry and two-edge arena. -/
theorem solver_c7_setEdge_nil_target_witness :
    lookupReg [("A", freshSt (Vtx.mk "A" false []) "A")] "A" =
        some (freshSt (Vtx.mk "A" false []) "A") ∧
      (∀ d st', lookupReg (solverSetEdge 1 1
          [("A", freshSt (Vtx.mk "A" false []) "A")]
          { edges := [(5, { vtxDgst := "B", index := 0, owner := none })], next := 6 }
          "A" 0 5).1 d = some st' →
        ∃ st₀, lookupReg [("A", freshSt (Vtx.mk "A" false []) "A")] d = some st₀ ∧
          st'.jobs = st₀.jobs ∧ st'.allPw = st₀.allPw ∧ st'.mpw = st₀.mpw) ∧
      ∃ s' eid, lookupReg (solverSetEdge 1 1
          [("A", freshSt (Vtx.mk "A" false []) "A")]
          { edges := [(5, { vtxDgst := "B", index := 0, owner := none })], next := 6 }
          "A" 0 5).1 "A" = some s' ∧
        lookupNat s'.edges 0 = some eid ∧
        ChainReaches (solverSetEdge 1 1
          [("A", freshSt (Vtx.mk "A" false []) "A")]
          { edges := [(5, { vtxDgst := "B", index := 0, owner := none })], next := 6 }
          "A" 0 5).2 eid 5 := by
  have hw := solver_c7_setEdge_nil_target 1 1
    [("A", freshSt (Vtx.mk "A" false []) "A")]
    { edges := [(5, { vtxDgst := "B", index := 0, owner := none })], next := 6 }
    "A" 0 5 (freshSt (Vtx.mk "A" false []) "A")
    (by simp [lookupReg])
    (by simp [lookupReg, edgeDgst, lookupArena, lookupNat])
    (by intro eid h; simp [freshSt, lookupNat] at h)
  exact ⟨by simp [lookupReg], hw.1, hw.2⟩

theorem mem_unionJobs_left : ∀ (src dst : List String) (x : String),
    x ∈ dst → x ∈ unionJobs dst src := by
  intro src
  induction src with
  | nil => intro dst x h; exact h
  | cons j rest ih =>
    intro dst x h
    rw [unionJobs]
    apply ih
    split
    · exact h
    · exact List.mem_append_left _ h

theorem mem_unionJobs_right : ∀ (src dst : List String) (x : String),
    x ∈ src → x ∈ unionJobs dst src := by
  intro src
  induction src with
  | nil => intro dst x h; simp at h
  | cons j rest ih =>
    intro dst x h
    rw [unionJobs]
    rcases List.mem_cons.mp h with rfl | h
    · apply mem_unionJobs_left
      split
      · assumption
      · exact List.mem_append_right _ (List.mem_singleton_self x)
    · exact ih _ x h

theorem updateReg_keys (a : Reg) (d : String) (f : St → St) :
    (updateReg a d f).map Prod.fst = a.map Prod.fst := by
  induction a with
  | nil => rfl
  | cons p t ih =>
    obtain ⟨k, st⟩ := p
    by_cases hk : k = d <;> simp [updateReg, hk, ih]

theorem lookupReg_some_mem_keys (a : Reg) (d : String) (st : St)
    (h : lookupReg a d = some st) : d ∈ a.map Prod.fst := by
  induction a with
  | nil => simp [lookupReg] at h
  | cons p t ih =>
    obtain ⟨k, st'⟩ := p
    by_cases hk : k = d
    · simp [hk]
    · rw [lookupReg, if_neg hk] at h
      simp [ih h]

theorem filterNotMem_length_mono (l : List String) (m m' : List String)
    (hsub : ∀ x, x ∈ m → x ∈ m') :
    ((l.filter (fun k => decide (k ∉ m'))).length ≤
      (l.filter (fun k => decide (k ∉ m))).length) := by
  induction l with
  | nil => simp
  | cons k t ih =>
    simp only [List.filter]
    by_cases hk' : k ∈ m'
    · rw [decide_eq_false (fun h => h hk')]
      by_cases hk : k ∈ m
      · rw [decide_eq_false (fun h => h hk)]
        exact ih
      · rw [decide_eq_true hk]
        simp only [List.length_cons]
        omega
    · have hk : k ∉ m := fun hmem => hk' (hsub k hmem)
      rw [decide_eq_true hk', decide_eq_true hk]
      simp only [List.length_cons]
      omega

theorem unvisitedCnt_mono (a : Reg) (m m' : List String)
    (hsub : ∀ x, x ∈ m → x ∈ m') : unvisitedCnt a m' ≤ unvisitedCnt a m :=
  filterNotMem_length_mono _ m m' hsub

theorem unvisitedCnt_cons_lt (a : Reg) (memo : List String) (d : String)
    (hmem : d ∈ a.map Prod.fst) (hnm : d ∉ memo) :
    unvisitedCnt a (d :: memo) < unvisitedCnt a memo := by
  unfold unvisitedCnt
  revert hmem
  induction (a.map Prod.fst) with
  | nil => intro h; simp at h
  | cons k t ih =>
    intro hmem
    have hmono := filterNotMem_length_mono t memo (d :: memo)
      (fun x hx => List.mem_cons_of_mem _ hx)
    simp only [List.filter]
    by_cases hkd : k = d
    · subst hkd
      have h1 : (decide (k ∉ k :: memo)) = false := by simp
      have h2 : (decide (k ∉ memo)) = true := by simp [hnm]
      rw [h1, h2]
      simp only [List.length_cons]
      omega
    · have hdt : d ∈ t := by
        rcases List.mem_cons.mp hmem with h | h
        · exact absurd h.symm hkd
        · exact h
      have hih := ih hdt
      have heads : (decide (k ∉ d :: memo)) = (decide (k ∉ memo)) := by
        by_cases hk : k ∈ memo <;> simp [hk, hkd]
      rw [heads]
      by_cases hk : k ∈ memo
      · simp only [decide_eq_false (by simpa using hk : ¬ k ∉ memo)]
        simpa using hih
      · simp only [decide_eq_true (by simpa using hk : k ∉ memo)]
        simp only [List.length_cons]
        omega

theorem sameSkel_refl (a : Reg) : SameSkel a a := by
  intro d
  rcases h : lookupReg a d with _ | st
  · exact Or.inl ⟨rfl, rfl⟩
  · exact Or.inr ⟨st, st, rfl, rfl, rfl, rfl, fun j hj => hj⟩

theorem sameSkel_trans {a b c : Reg} (h₁ : SameSkel a b) (h₂ : SameSkel b c) :
    SameSkel a c := by
  intro d
  rcases h₁ d with ⟨ha, hb⟩ | ⟨st, st', ha, hb, hv, he, hj⟩
  · rcases h₂ d with ⟨hb', hc⟩ | ⟨st', st'', hb', hc, _, _, _⟩
    · exact Or.inl ⟨ha, hc⟩
    · rw [hb] at hb'; exact absurd hb' (by simp)
  · rcases h₂ d with ⟨hb', hc⟩ | ⟨stb, st'', hb', hc, hv', he', hj'⟩
    · rw [hb] at hb'; exact absurd hb' (by simp)
    · rw [hb] at hb'
      obtain rfl : st' = stb := by simpa using hb'
      exact Or.inr ⟨st, st'', ha, hc, hv'.trans hv, he'.trans he,
        fun j hj2 => hj' j (hj j hj2)⟩

theorem sameSkel_entry {a b : Reg} (h : SameSkel a b) {d : String} {st : St}
    (hd : lookupReg a d = some st) :
    ∃ st', lookupReg b d = some st' ∧ st'.vtx = st.vtx ∧ st'.edges = st.edges ∧
      ∀ j ∈ st.jobs, j ∈ st'.jobs := by
  rcases h d with ⟨ha, _⟩ | ⟨st₀, st', ha, hb, hv, he, hj⟩
  · rw [hd] at ha; exact absurd ha (by simp)
  · rw [hd] at ha
    obtain rfl : st = st₀ := by simpa using ha
    exact ⟨st', hb, hv, he, hj⟩

theorem sameSkel_entry_rev {a b : Reg} (h : SameSkel a b) {d : String} {st' : St}
    (hd : lookupReg b d = some st') :
    ∃ st, lookupReg a d = some st ∧ st'.vtx = st.vtx ∧ st'.edges = st.edges ∧
      ∀ j ∈ st.jobs, j ∈ st'.jobs := by
  rcases h d with ⟨_, hb⟩ | ⟨st, st'', ha, hb, hv, he, hj⟩
  · rw [hd] at hb; exact absurd hb (by simp)
  · rw [hd] at hb
    obtain rfl : st' = st'' := by simpa using hb
    exact ⟨st, ha, hv, he, hj⟩

theorem sameSkel_isSome {a b : Reg} (h : SameSkel a b) (d : String) :
    (lookupReg a d).isSome = (lookupReg b d).isSome := by
  rcases h d with ⟨ha, hb⟩ | ⟨st, st', ha, hb, _⟩ <;> simp [ha, hb]

theorem sameSkel_update_union (a : Reg) (d : String) (src : List String) :
    SameSkel a (updateReg a d (fun st => { st with jobs := unionJobs st.jobs src })) := by
  intro x
  rw [lookupReg_update]
  by_cases hx : x = d
  · subst hx
    rw [if_pos rfl]
    rcases h : lookupReg a x with _ | st
    · exact Or.inl ⟨rfl, rfl⟩
    · exact Or.inr ⟨st, { st with jobs := unionJobs st.jobs src }, rfl, rfl, rfl,
        rfl, fun j hj => mem_unionJobs_left src st.jobs j hj⟩
  · rw [if_neg hx]
    exact sameSkel_refl a x

theorem resolveRepDgst_congr (ar : Arena) (cf idx : Nat) {ist ist' : St}
    (hv : ist'.vtx = ist.vtx) (he : ist'.edges = ist.edges) :
    resolveRepDgst ar cf ist' idx = resolveRepDgst ar cf ist idx := by
  unfold resolveRepDgst
  rw [hv, he]

theorem stepInput_congr {a b : Reg} {ar : Arena} {cf idx : Nat} {iv : Vtx}
    {y : String} (h : SameSkel a b) (hs : StepInput b ar cf idx iv y) :
    StepInput a ar cf idx iv y := by
  obtain ⟨ist, hist, hdisj⟩ := hs
  obtain ⟨ist₀, hist₀, hv, he, -⟩ := sameSkel_entry_rev h hist
  refine ⟨ist₀, hist₀, ?_⟩
  rcases hdisj with h1 | ⟨h1, h2, h3⟩
  · exact Or.inl h1
  · refine Or.inr ⟨?_, h2, ?_⟩
    · rw [h1, resolveRepDgst_congr ar cf idx hv he]
    · rw [sameSkel_isSome h y]
      exact h3

theorem stepReach_congr {a b : Reg} {ar : Arena} {cf : Nat} {x y : String}
    (h : SameSkel a b) (hs : StepReach b ar cf x y) : StepReach a ar cf x y := by
  obtain ⟨st, hst, p, hp, hsi⟩ := hs
  obtain ⟨st₀, hst₀, hv, -, -⟩ := sameSkel_entry_rev h hst
  exact ⟨st₀, hst₀, p, by rw [← hv]; exact hp, stepInput_congr h hsi⟩

theorem unvisitedCnt_congr_keys {a b : Reg} (m : List String)
    (h : a.map Prod.fst = b.map Prod.fst) : unvisitedCnt a m = unvisitedCnt b m := by
  unfold unvisitedCnt
  rw [h]

theorem addJobs_spec :
    ∀ (fuel : Nat),
      (∀ (cf : Nat) (ar : Arena) (a₀ : Reg) (srcJobs : List String) (d : String)
        (a : Reg) (memo : List String) (a' : Reg) (memo' : List String),
        SameSkel a₀ a → a.map Prod.fst = a₀.map Prod.fst →
        unvisitedCnt a memo < fuel →
        addJobs fuel cf ar srcJobs d a memo = (a', memo') →
        SameSkel a a' ∧
        a'.map Prod.fst = a.map Prod.fst ∧
        (∀ x ∈ memo, x ∈ memo') ∧
        unvisitedCnt a' memo' ≤ unvisitedCnt a memo ∧
        ((lookupReg a d).isSome → d ∈ memo') ∧
        ∀ x, x ∈ memo' → x ∉ memo →
          (∀ stx j, lookupReg a' x = some stx → j ∈ srcJobs → j ∈ stx.jobs) ∧
          ∀ y, StepReach a₀ ar cf x y → y ∈ memo') ∧
      ∀ (cf : Nat) (ar : Arena) (a₀ : Reg) (srcJobs : List String)
        (l : List (Nat × Vtx)) (a : Reg) (memo : List String) (a' : Reg)
        (memo' : List String),
        SameSkel a₀ a → a.map Prod.fst = a₀.map Prod.fst →
        unvisitedCnt a memo < fuel →
        addJobsInputs fuel cf ar srcJobs l a memo = (a', memo') →
        SameSkel a a' ∧
        a'.map Prod.fst = a.map Prod.fst ∧
        (∀ x ∈ memo, x ∈ memo') ∧
        unvisitedCnt a' memo' ≤ unvisitedCnt a memo ∧
        (∀ x, x ∈ memo' → x ∉ memo →
          (∀ stx j, lookupReg a' x = some stx → j ∈ srcJobs → j ∈ stx.jobs) ∧
          ∀ y, StepReach a₀ ar cf x y → y ∈ memo') ∧
        ∀ p ∈ l, ∀ y, StepInput a₀ ar cf p.1 p.2 y → y ∈ memo' := by
  intro fuel
  induction fuel with
  | zero =>
    exact ⟨fun cf ar a₀ srcJobs d a memo a' memo' _ _ hlt _ =>
        absurd hlt (Nat.not_lt_zero _),
      fun cf ar a₀ srcJobs l a memo a' memo' _ _ hlt _ =>
        absurd hlt (Nat.not_lt_zero _)⟩
  | succ fuel ih =>
    have hU : ∀ (cf : Nat) (ar : Arena) (a₀ : Reg) (srcJobs : List String)
        (d : String) (a : Reg) (memo : List String) (a' : Reg)
        (memo' : List String),
        SameSkel a₀ a → a.map Prod.fst = a₀.map Prod.fst →
        unvisitedCnt a memo < fuel + 1 →
        addJobs (fuel + 1) cf ar srcJobs d a memo = (a', memo') →
        SameSkel a a' ∧
        a'.map Prod.fst = a.map Prod.fst ∧
        (∀ x ∈ memo, x ∈ memo') ∧
        unvisitedCnt a' memo' ≤ unvisitedCnt a memo ∧
        ((lookupReg a d).isSome → d ∈ memo') ∧
        ∀ x, x ∈ memo' → x ∉ memo →
          (∀ stx j, lookupReg a' x = some stx → j ∈ srcJobs → j ∈ stx.jobs) ∧
          ∀ y, StepReach a₀ ar cf x y → y ∈ memo' := by
      intro cf ar a₀ srcJobs d a memo a' memo' hsk hkeys hlt h
      rw [addJobs] at h
      by_cases hdm : d ∈ memo
      · rw [if_pos hdm] at h
        obtain ⟨rfl, rfl⟩ : a = a' ∧ memo = memo' := by
          simpa [Prod.mk.injEq] using h
        exact ⟨sameSkel_refl a, rfl, fun x hx => hx, le_refl _,
          fun _ => hdm, fun x hx hnx => absurd hx hnx⟩
      · rw [if_neg hdm] at h
        rcases hld : lookupReg a d with _ | s <;> rw [hld] at h
        · obtain ⟨rfl, rfl⟩ : a = a' ∧ memo = memo' := by
            simpa [Prod.mk.injEq] using h
          exact ⟨sameSkel_refl a, rfl, fun x hx => hx, le_refl _,
            fun hs => absurd hs (by simp), fun x hx hnx => absurd hx hnx⟩
        · dsimp only at h
          have hsk₁ : SameSkel a (updateReg a d
              (fun st => { st with jobs := unionJobs st.jobs srcJobs })) :=
            sameSkel_update_union a d srcJobs
          have hkeys₁ : (updateReg a d
              (fun st => { st with jobs := unionJobs st.jobs srcJobs })).map
                Prod.fst = a₀.map Prod.fst :=
            (updateReg_keys a d _).trans hkeys
          have hcons : unvisitedCnt a (d :: memo) < unvisitedCnt a memo :=
            unvisitedCnt_cons_lt a memo d (lookupReg_some_mem_keys a d s hld) hdm
          have huv₁ : unvisitedCnt (updateReg a d
              (fun st => { st with jobs := unionJobs st.jobs srcJobs }))
              (d :: memo) = unvisitedCnt a (d :: memo) :=
            unvisitedCnt_congr_keys _ (updateReg_keys a d _)
          have hlt₁ : unvisitedCnt (updateReg a d
              (fun st => { st with jobs := unionJobs st.jobs srcJobs }))
              (d :: memo) < fuel := by omega
          obtain ⟨I1, I2, I3, I4, I6, I7⟩ := ih.2 cf ar a₀ srcJobs s.vtx.inputs
            (updateReg a d (fun st => { st with jobs := unionJobs st.jobs srcJobs }))
            (d :: memo) a' memo' (sameSkel_trans hsk hsk₁) hkeys₁ hlt₁ h
          refine ⟨sameSkel_trans hsk₁ I1, I2.trans (updateReg_keys a d _),
            fun x hx => I3 x (List.mem_cons_of_mem _ hx), by omega,
            fun _ => I3 d (List.mem_cons_self _ _), ?_⟩
          intro x hx hnx
          by_cases hxd : x = d
          · subst hxd
            constructor
            · intro stx j hstx hj
              have hx1 : lookupReg (updateReg a x
                  (fun st => { st with jobs := unionJobs st.jobs srcJobs })) x =
                  some { s with jobs := unionJobs s.jobs srcJobs } := by
                rw [lookupReg_update, if_pos rfl, hld]
                rfl
              obtain ⟨st', hst', -, -, hjobs⟩ := sameSkel_entry I1 hx1
              rw [hstx] at hst'
              have hse : stx = st' := by simpa using hst'
              subst hse
              exact hjobs j (mem_unionJobs_right srcJobs s.jobs j hj)
            · intro y hy
              obtain ⟨st₀, h₀, p, hp, hsi⟩ := hy
              obtain ⟨s', hs', hv, -, -⟩ := sameSkel_entry hsk h₀
              rw [hld] at hs'
              have hss : s = s' := by simpa using hs'
              subst hss
              exact I7 p (by rw [hv]; exact hp) y hsi
          · obtain ⟨hjobs, hsucc⟩ := I6 x hx (by
              intro hmem
              rcases List.mem_cons.mp hmem with h1 | h1
              · exact hxd h1
              · exact hnx h1)
            exact ⟨hjobs, hsucc⟩
    refine ⟨hU, ?_⟩
    intro cf ar a₀ srcJobs l
    induction l with
    | nil =>
      intro a memo a' memo' hsk hkeys hlt h
      rw [addJobsInputs] at h
      obtain ⟨rfl, rfl⟩ : a = a' ∧ memo = memo' := by
        simpa [Prod.mk.injEq] using h
      exact ⟨sameSkel_refl a, rfl, fun x hx => hx, le_refl _,
        fun x hx hnx => absurd hx hnx, fun p hp => absurd hp (by simp)⟩
    | cons q rest ihl =>
      obtain ⟨idx, iv⟩ := q
      intro a memo a' memo' hsk hkeys hlt h
      rw [addJobsInputs] at h
      rcases hliv : lookupReg a iv.dgst with _ | ist <;> rw [hliv] at h
      · obtain ⟨R1, R2, R3, R4, R6, R7⟩ := ihl a memo a' memo' hsk hkeys hlt h
        refine ⟨R1, R2, R3, R4, R6, ?_⟩
        intro p hp y hy
        rcases List.mem_cons.mp hp with rfl | hp'
        · obtain ⟨ist₀, hist₀, -⟩ := hy
          have hdom := sameSkel_isSome hsk iv.dgst
          rw [hist₀, hliv] at hdom
          exact absurd hdom (by simp)
        · exact R7 p hp' y hy
      · dsimp only at h
        rcases hA : addJobs (fuel + 1) cf ar srcJobs iv.dgst a memo
          with ⟨a₁, memo₁⟩
        rw [hA] at h
        dsimp only at h
        obtain ⟨A1, A2, A3, A4, A5, A6⟩ := hU cf ar a₀ srcJobs iv.dgst a memo
          a₁ memo₁ hsk hkeys hlt hA
        have hsk₀₁ : SameSkel a₀ a₁ := sameSkel_trans hsk A1
        have hkeys₁ : a₁.map Prod.fst = a₀.map Prod.fst := A2.trans hkeys
        have hlt₁ : unvisitedCnt a₁ memo₁ < fuel + 1 := by omega
        have hivmem : iv.dgst ∈ memo₁ := A5 (by rw [hliv]; rfl)
        have hrep : ∀ (ist₀ : St), lookupReg a₀ iv.dgst = some ist₀ →
            resolveRepDgst ar cf ist₀ idx = resolveRepDgst ar cf ist idx := by
          intro ist₀ hist₀
          obtain ⟨ist', hist', hv, he, -⟩ := sameSkel_entry hsk hist₀
          rw [hliv] at hist'
          have hii : ist = ist' := by simpa using hist'
          subst hii
          exact (resolveRepDgst_congr ar cf idx hv he).symm
        by_cases hmd : (resolveRepDgst ar cf ist idx == iv.dgst) = true
        · rw [if_pos hmd] at h
          obtain ⟨R1, R2, R3, R4, R6, R7⟩ := ihl a₁ memo₁ a' memo' hsk₀₁
            hkeys₁ hlt₁ h
          have hmemo₁ : ∀ x ∈ memo₁, x ∈ memo' := R3
          refine ⟨sameSkel_trans A1 R1, R2.trans A2,
            fun x hx => hmemo₁ x (A3 x hx), by omega, ?_, ?_⟩
          · intro x hx hnx
            by_cases hx₁ : x ∈ memo₁
            · obtain ⟨hjobs, hsucc⟩ := A6 x hx₁ hnx
              refine ⟨?_, fun y hy => hmemo₁ y (hsucc y hy)⟩
              intro stx j hstx hj
              obtain ⟨st₁, hst₁, -, -, hjsub⟩ := sameSkel_entry_rev R1 hstx
              exact hjsub j (hjobs st₁ j hst₁ hj)
            · exact R6 x hx hx₁
          · intro p hp y hy
            rcases List.mem_cons.mp hp with rfl | hp'
            · obtain ⟨ist₀, hist₀, hdisj⟩ := hy
              rcases hdisj with rfl | ⟨hy1, hy2, -⟩
              · exact hmemo₁ _ hivmem
              · rw [hrep ist₀ hist₀] at hy1
                rw [hy1] at hy2
                exact absurd (eq_of_beq hmd) hy2
            · exact R7 p hp' y hy
        · rw [if_neg hmd] at h
          rcases hlmd : lookupReg a₁ (resolveRepDgst ar cf ist idx)
            with _ | mst <;> rw [hlmd] at h
          · obtain ⟨R1, R2, R3, R4, R6, R7⟩ := ihl a₁ memo₁ a' memo' hsk₀₁
              hkeys₁ hlt₁ h
            refine ⟨sameSkel_trans A1 R1, R2.trans A2,
              fun x hx => R3 x (A3 x hx), by omega, ?_, ?_⟩
            · intro x hx hnx
              by_cases hx₁ : x ∈ memo₁
              · obtain ⟨hjobs, hsucc⟩ := A6 x hx₁ hnx
                refine ⟨?_, fun y hy => R3 y (hsucc y hy)⟩
                intro stx j hstx hj
                obtain ⟨st₁, hst₁, -, -, hjsub⟩ := sameSkel_entry_rev R1 hstx
                exact hjsub j (hjobs st₁ j hst₁ hj)
              · exact R6 x hx hx₁
            · intro p hp y hy
              rcases List.mem_cons.mp hp with rfl | hp'
              · obtain ⟨ist₀, hist₀, hdisj⟩ := hy
                rcases hdisj with rfl | ⟨hy1, -, hy3⟩
                · exact R3 _ hivmem
                · rw [hrep ist₀ hist₀] at hy1
                  have hdom := sameSkel_isSome hsk₀₁ y
                  rw [hy1, hlmd] at hdom
                  rw [hy1, hdom] at hy3
                  exact absurd hy3 (by simp)
              · exact R7 p hp' y hy
          · rcases hB : addJobs (fuel + 1) cf ar srcJobs
              (resolveRepDgst ar cf ist idx) a₁ memo₁ with ⟨a₂, memo₂⟩
            rw [hB] at h
            dsimp only at h
            obtain ⟨B1, B2, B3, B4, B5, B6⟩ := hU cf ar a₀ srcJobs
              (resolveRepDgst ar cf ist idx) a₁ memo₁ a₂ memo₂ hsk₀₁ hkeys₁
              hlt₁ hB
            have hsk₀₂ : SameSkel a₀ a₂ := sameSkel_trans hsk₀₁ B1
            have hkeys₂ : a₂.map Prod.fst = a₀.map Prod.fst := B2.trans hkeys₁
            have hlt₂ : unvisitedCnt a₂ memo₂ < fuel + 1 := by omega
            obtain ⟨R1, R2, R3, R4, R6, R7⟩ := ihl a₂ memo₂ a' memo' hsk₀₂
              hkeys₂ hlt₂ h
            have hmdmem : resolveRepDgst ar cf ist idx ∈ memo₂ :=
              B5 (by rw [hlmd]; rfl)
            refine ⟨sameSkel_trans A1 (sameSkel_trans B1 R1),
              R2.trans (B2.trans A2),
              fun x hx => R3 x (B3 x (A3 x hx)), by omega, ?_, ?_⟩
            · intro x hx hnx
              by_cases hx₁ : x ∈ memo₁
              · obtain ⟨hjobs, hsucc⟩ := A6 x hx₁ hnx
                refine ⟨?_, fun y hy => R3 y (B3 y (hsucc y hy))⟩
                intro stx j hstx hj
                obtain ⟨st₂, hst₂, -, -, hjsub₂⟩ := sameSkel_entry_rev R1 hstx
                obtain ⟨st₁, hst₁, -, -, hjsub₁⟩ := sameSkel_entry_rev B1 hst₂
                exact hjsub₂ j (hjsub₁ j (hjobs st₁ j hst₁ hj))
              · by_cases hx₂ : x ∈ memo₂
                · obtain ⟨hjobs, hsucc⟩ := B6 x hx₂ hx₁
                  refine ⟨?_, fun y hy => R3 y (hsucc y hy)⟩
                  intro stx j hstx hj
                  obtain ⟨st₂, hst₂, -, -, hjsub₂⟩ := sameSkel_entry_rev R1 hstx
                  exact hjsub₂ j (hjobs st₂ j hst₂ hj)
                · exact R6 x hx hx₂
            · intro p hp y hy
              rcases List.mem_cons.mp hp with rfl | hp'
              · obtain ⟨ist₀, hist₀, hdisj⟩ := hy
                rcases hdisj with rfl | ⟨hy1, -, -⟩
                · exact R3 _ (B3 _ hivmem)
                · rw [hrep ist₀ hist₀] at hy1
                  rw [hy1]
                  exact R3 _ hmdmem
              · exact R7 p hp' y hy

theorem setEdge_afterOwn_jobs (fuel cf : Nat) (a : Reg) (ar₂ : Arena)
    (srcJobs : List String) (sKey tk : String) (a' : Reg)
    (hfuel : unvisitedCnt a [] < fuel)
    (ha' : updateReg (addJobs fuel cf ar₂ srcJobs tk a []).1 tk
        (fun tst =>
          if WId.stMpw sKey ∈ tst.allPw then tst
          else { tst with mpw := tst.mpw ++ [WId.stMpw sKey]
                          allPw := WId.stMpw sKey :: tst.allPw }) = a')
    (x : String)
    (hreach : Relation.ReflTransGen (StepReach a ar₂ cf) tk x) :
    ∀ stx, lookupReg a' x = some stx → ∀ j ∈ srcJobs, j ∈ stx.jobs := by
  rcases hA : addJobs fuel cf ar₂ srcJobs tk a [] with ⟨a₁, memo₁⟩
  rw [hA] at ha'
  dsimp only at ha'
  subst ha'
  obtain ⟨A1, A2, A3, A4, A5, A6⟩ := (addJobs_spec fuel).1 cf ar₂ a srcJobs tk
    a [] a₁ memo₁ (sameSkel_refl a) rfl hfuel hA
  have hmem : (lookupReg a tk).isSome → x ∈ memo₁ := by
    intro htk
    induction hreach with
    | refl => exact A5 htk
    | tail hab hbc ihb => exact (A6 _ ihb (List.not_mem_nil _)).2 _ hbc
  intro stx hstx j hj
  by_cases hxtk : x = tk
  · subst hxtk
    rw [lookupReg_update, if_pos rfl, Option.map_eq_some'] at hstx
    obtain ⟨st₁, hL, hfst⟩ := hstx
    have htk : (lookupReg a x).isSome := by
      rw [sameSkel_isSome A1, hL]
      rfl
    have hjobs := (A6 x (hmem htk) (List.not_mem_nil x)).1 st₁ j hL hj
    rw [← hfst]
    split
    · exact hjobs
    · exact hjobs
  · rw [lookupReg_update, if_neg hxtk] at hstx
    rcases Relation.ReflTransGen.cases_head hreach with h1 | ⟨y, hty, -⟩
    · exact absurd h1.symm hxtk
    · obtain ⟨st, hst, -⟩ := hty
      have htk : (lookupReg a tk).isSome := by
        rw [hst]
        rfl
      exact (A6 x (hmem htk) (List.not_mem_nil x)).1 stx j hstx hj

/-- C5 (amended): after `state.setEdge` with a non-nil target state
completes and actually performs the merge — either no edge existed yet
at `index` (setEdge creates one, jobs.go lines 175-182) or the edge
there did not already resolve to the target edge (otherwise `setEdge`
returns immediately with no bookkeeping at all) — every job of the
source state is a member of the jobs set of the target state and of
every active state reachable from the target by following its vertex's
inputs transitively, including, for an input edge already merged away,
the state of the owning representative edge.  Reachability is over the
registry/arena as they stand when `addJobs` starts (`setEdgePre`); the
fuel bound exceeds the number of active states, so the memoised
traversal runs to completion. -/
theorem solver_c5_setEdge_jobs_propagate
    (fuel cf : Nat) (a : Reg) (ar : Arena) (sKey tk : String)
    (index targetEid : Nat) (s : St) (a' : Reg) (ar' : Arena)
    (hs : lookupReg a sKey = some s)
    (hne : ∀ eid, lookupNat s.edges index = some eid →
      (resolveOwner ar cf eid == targetEid) = false)
    (hfuel : unvisitedCnt a [] < fuel)
    (hrun : stateSetEdge fuel cf a ar sKey index targetEid (some tk) = (a', ar'))
    (x : String)
    (hreach : Relation.ReflTransGen
      (StepReach (setEdgePre cf a ar sKey index targetEid s).1
        (setEdgePre cf a ar sKey index targetEid s).2 cf) tk x) :
    ∀ stx, lookupReg a' x = some stx → ∀ j ∈ s.jobs, j ∈ stx.jobs := by
  rcases he : lookupNat s.edges index with _ | eid
  · have hpre : setEdgePre cf a ar sKey index targetEid s =
        (updateReg a sKey
          (fun st => { st with edges := (index, ar.next) :: st.edges }),
         takeOwnership (allocEdge ar s.vtx.dgst index).1 targetEid ar.next) := by
      simp [setEdgePre, he, allocEdge]
    rw [hpre] at hreach
    simp only [stateSetEdge, hs, he, allocEdge] at hrun
    rcases hA : addJobs fuel cf
      (takeOwnership (allocEdge ar s.vtx.dgst index).1 targetEid ar.next) s.jobs
      tk (updateReg a sKey
        (fun st => { st with edges := (index, ar.next) :: st.edges })) []
      with ⟨a₁, memo₁⟩
    rw [show (allocEdge ar s.vtx.dgst index).1 =
        { edges := (ar.next, { vtxDgst := s.vtx.dgst, index := index
                               owner := none }) :: ar.edges
          next := ar.next + 1 } from rfl] at hA
    rw [hA] at hrun
    dsimp only at hrun
    injection hrun with ha' har'
    refine setEdge_afterOwn_jobs fuel cf
      (updateReg a sKey
        (fun st => { st with edges := (index, ar.next) :: st.edges }))
      (takeOwnership (allocEdge ar s.vtx.dgst index).1 targetEid ar.next)
      s.jobs sKey tk a' ?_ ?_ x hreach
    · rw [unvisitedCnt_congr_keys [] (updateReg_keys a sKey _)]
      exact hfuel
    · rw [show (allocEdge ar s.vtx.dgst index).1 =
          { edges := (ar.next, { vtxDgst := s.vtx.dgst, index := index
                                 owner := none }) :: ar.edges
            next := ar.next + 1 } from rfl, hA]
      exact ha'
  · have hpre : setEdgePre cf a ar sKey index targetEid s =
        (a, takeOwnership ar targetEid (resolveOwner ar cf eid)) := by
      simp [setEdgePre, he]
    rw [hpre] at hreach
    simp only [stateSetEdge, hs, he, hne eid he, Bool.false_eq_true, if_false]
      at hrun
    rcases hA : addJobs fuel cf
      (takeOwnership ar targetEid (resolveOwner ar cf eid)) s.jobs tk a []
      with ⟨a₁, memo₁⟩
    rw [hA] at hrun
    dsimp only at hrun
    injection hrun with ha' har'
    refine setEdge_afterOwn_jobs fuel cf a
      (takeOwnership ar targetEid (resolveOwner ar cf eid)) s.jobs sKey tk a'
      hfuel ?_ x hreach
    rw [hA]
    exact ha'

/-- C5 counterexample to the unamended claim: the source state's edge 0
was already merged into the target edge in an earlier `setEdge` (its
owner chain resolves to the target), and the source has since gained
job "j".  Calling `state.setEdge` again with the same target hits the
early return (jobs.go lines 172-173): the registry and arena come back
completely unchanged, so "j" is in the source state's jobs but not in
the non-nil target state's jobs, contradicting the claim. -/
theorem solver_c5_counterexample :
    stateSetEdge 10 10 c5Reg c5EarlyArena "s" 0 1 (some "t") =
      (c5Reg, c5EarlyArena) ∧
    lookupReg c5Reg "s" = some c5SrcSt ∧ "j" ∈ c5SrcSt.jobs ∧
    lookupReg c5Reg "t" = some c5TgtSt ∧ "j" ∉ c5TgtSt.jobs := by
  refine ⟨rfl, rfl, ?_, rfl, ?_⟩
  · simp [c5SrcSt]
  · simp [c5TgtSt]

theorem solver_c5_setEdge_jobs_propagate_witness :
    lookupReg (stateSetEdge 3 1 c5Reg c5MergeArena "s" 0 1 (some "t")).1 "t" =
      some c5TgtAfter ∧ "j" ∈ c5TgtAfter.jobs := by
  have hlook : lookupReg
      (stateSetEdge 3 1 c5Reg c5MergeArena "s" 0 1 (some "t")).1 "t" =
      some c5TgtAfter := by
    simp [stateSetEdge, c5Reg, c5SrcSt, c5TgtSt, c5TgtAfter, c5MergeArena,
      lookupReg, lookupNat, resolveOwner, ownerOf, lookupArena, takeOwnership,
      updateNat, addJobs, addJobsInputs, updateReg, unionJobs, Vtx.inputs,
      Vtx.dgst]
  refine ⟨hlook, solver_c5_setEdge_jobs_propagate 3 1 c5Reg c5MergeArena "s" "t"
    0 1 c5SrcSt _ _ rfl ?_ (by decide) rfl "t"
    Relation.ReflTransGen.refl c5TgtAfter hlook "j" (by simp [c5SrcSt])⟩
  intro eid heid
  have he0 : (0 : Nat) = eid := by simpa [c5SrcSt, lookupNat] using heid
  subst he0
  rfl
